import Mathlib

/-!
Verification of the auto-vectorization analysis core (hotspot/share/opto/vectorization.cpp).

This file gives a shallow embedding of the components the claims are about:
  * the AlignmentSolver (`AlignmentSolver::solve`),
  * the loop precondition checker (`VLoop::check_preconditions_helper`),
  * the VPointer address pattern matcher (`scaled_iv`, `offset_plus_k`,
    `scaled_iv_plus_offset`),
  * the dependence-graph builder (`VLoopDependenceGraph::build`),
  * the depth computation (`VLoopDependenceGraph::compute_max_depth`),
  * the independence queries (`independent`, `mutually_independent`).

C++ `int` arithmetic is modelled over ℤ (exact arithmetic, as the claims assume).
C++ truncated division `/` is `Int.tdiv`; the solver's "always non-negative" mod
(`AlignmentSolution::mod`, declared in vectorization.hpp which is not part of the
sources at hand) is `Int.emod` (`%` on ℤ), which is non-negative for a positive
modulus.
-/

/-! ### Powers of two

Modelled from the spec: `is_power_of_2` lives in utilities/powerOfTwo.hpp, which
is not among the sources; the spec only uses "x is a power of two". -/

/-- Modelled from the spec: `is_power_of_2` on a natural number, via repeated
halving with a structural fuel argument (so that it reduces definitionally). -/
def isPow2NatAux : ℕ → ℕ → Bool
  | _, 0 => false
  | 0, _+1 => false
  | 1, _+1 => true
  | (n+2), fuel+1 => ((n+2) % 2 == 0) && isPow2NatAux ((n+2) / 2) fuel

def isPow2Nat (n : ℕ) : Bool := isPow2NatAux n n

/-- Modelled from the spec: `is_power_of_2` on an integer (positive power of two). -/
def isPow2 (x : ℤ) : Bool := 0 < x && isPow2Nat x.toNat

/-! ### AlignmentSolver (vectorization.cpp lines 704-1187)

The solver's inputs mirror the fields of `AlignmentSolver`:
offset, scale, invar presence and factor, the init node (either a compile-time
`ConI` constant or a variable), the pre-loop and main-loop strides, and
`aw = MIN(vector_width, ObjectAlignmentInBytes)`. -/
structure SolverInput where
  offset : ℤ          -- _offset (from the VPointer)
  invar : Bool        -- _invar != nullptr
  invarFactor : ℤ     -- _invar_factor
  initIsCon : Bool    -- _init_node->is_ConI()
  initCon : ℤ         -- _init_node->as_ConI()->get_int() (meaningful when initIsCon)
  scale : ℤ           -- _scale (from the VPointer)
  preStride : ℤ       -- _pre_stride
  mainStride : ℤ      -- _main_stride = _pre_stride * unroll_factor
  aw : ℤ              -- _aw
  deriving Repr, DecidableEq

/-- `const int C_const_init = _init_node->is_ConI() ? ...get_int() : 0;` -/
def C_const_init (i : SolverInput) : ℤ := if i.initIsCon then i.initCon else 0

/-- `const int C_const = _offset + C_const_init * _scale;` -/
def C_const (i : SolverInput) : ℤ := i.offset + C_const_init i * i.scale

/-- `const int C_invar = (_invar == nullptr) ? 0 : abs(_invar_factor);` -/
def C_invar (i : SolverInput) : ℤ := if i.invar then |i.invarFactor| else 0

/-- `const int C_init = _init_node->is_ConI() ? 0 : _scale;` -/
def C_init (i : SolverInput) : ℤ := if i.initIsCon then 0 else i.scale

/-- `const int C_pre = _scale * _pre_stride;` -/
def C_pre (i : SolverInput) : ℤ := i.scale * i.preStride

/-- `const int C_main = _scale * _main_stride;` -/
def C_main (i : SolverInput) : ℤ := i.scale * i.mainStride

/-- The state of one of the three sub-equations EQ(4a, b, c). -/
inductive EQ4State where
  | trivial
  | empty
  | constrained
  deriving Repr, DecidableEq

/-- Modelled from the spec (the `EQ4` helper class is declared in
vectorization.hpp, which is not among the sources; the state table below is the
one given both by the spec and by the solver's own comment, lines 946-965):

  `|C_pre| >= aw` and `C % aw = 0`        -> TRIVIAL
  `|C_pre| >= aw` and `C % aw ≠ 0`        -> EMPTY
  `|C_pre| <  aw` and `C % |C_pre| = 0`   -> CONSTRAINED
  `|C_pre| <  aw` and `C % |C_pre| ≠ 0`   -> EMPTY -/
def eq4State (C Cp aw : ℤ) : EQ4State :=
  if aw ≤ |Cp| then
    (if C % aw = 0 then .trivial else .empty)
  else
    (if C % |Cp| = 0 then .constrained else .empty)

/-- `AlignmentSolution` as a sum type: `Trivial`, `Empty(reason)`, or
`Constrained{mem_ref, q, r, invar, scale}` (the `mem_ref` node handle is not
needed by any claim and is omitted; `invar` is its presence flag). -/
inductive AlignmentSolution where
  | trivialSol
  | emptySol (reason : String)
  | constrainedSol (q r : ℤ) (invar : Bool) (scale : ℤ)
  deriving Repr, DecidableEq

/-- `AlignmentSolver::solve` (vectorization.cpp lines 704-1187), with the trace
calls and assertions dropped.  `AlignmentSolution::mod` is `Int.emod` and the
C++ truncated division is `Int.tdiv`.  The C++ early-return guards
(`if (!ok) return Empty; ...`) are rendered as nested conditionals with the
guard condition stated positively. -/
def solve (i : SolverInput) : AlignmentSolution :=
  -- Out of simplicity: non power-of-2 stride not supported.
  if isPow2 |i.preStride| = true then
    -- Out of simplicity: non power-of-2 scale not supported.
    if |i.scale| ≠ 0 ∧ isPow2 |i.scale| = true then
      if C_main i % i.aw = 0 then
        if eq4State (C_const i) (C_pre i) i.aw = .trivial ∧
           eq4State (C_invar i) (C_pre i) i.aw = .trivial ∧
           eq4State (C_init i) (C_pre i) i.aw = .trivial then
          .trivialSol
        else if eq4State (C_const i) (C_pre i) i.aw = .empty ∨
                eq4State (C_invar i) (C_pre i) i.aw = .empty ∨
                eq4State (C_init i) (C_pre i) i.aw = .empty then
          .emptySol "EQ(4a, b, c) not all non-empty: cannot align const, invar and init terms individually"
        else
          -- q = aw / abs(C_pre), r = mod(-C_const / (scale * pre_stride), q)
          .constrainedSol (i.aw.tdiv |C_pre i|)
            ((-(C_const i)).tdiv (i.scale * i.preStride) % (i.aw.tdiv |C_pre i|))
            i.invar i.scale
      else .emptySol "EQ(2) not satisfied (cannot align across main-loop iterations)"
    else .emptySol "non power-of-2 scale not supported"
  else .emptySol "non power-of-2 stride not supported"

/-- The spec's scenario S1 (`a[i] = b[i] + 1`, `vector_width = 32`,
`element_size = 4`, `pre_stride = 1`, `main_stride = 8`, constant init,
no invariant), used as a concrete witness input. -/
def s1Input : SolverInput :=
  { offset := 0, invar := false, invarFactor := 0, initIsCon := true,
    initCon := 0, scale := 4, preStride := 1, mainStride := 8, aw := 32 }

/-! ### VLoop::check_preconditions (vectorization.cpp lines 1354-1435)

The helper consults the loop and platform state through accessors
(`Matcher::vector_width_in_bytes`, `is_valid_counted_loop`,
`is_vectorized_loop`, `is_unroll_only`, `loopexit()->in(0)`, `is_allow_cfg`,
`back_control()->outcnt()`, `is_main_loop`, `find_pre_loop_end`,
`pre_end->limit()->Opcode()`); those observations are the fields of this
record. -/
structure LoopInput where
  vectorWidth : ℤ               -- Matcher::vector_width_in_bytes(T_BYTE)
  validCountedLoop : Bool       -- _lpt->_head->as_Loop()->is_valid_counted_loop(T_INT)
  isVectorizedLoop : Bool       -- _cl->is_vectorized_loop()
  isUnrollOnly : Bool           -- _cl->is_unroll_only()
  clExitCtrlIsCl : Bool         -- _cl_exit->in(0) == _cl (i.e. no in-body control flow)
  allowCfg : Bool               -- is_allow_cfg()
  backControlOutcnt : ℕ         -- _cl->back_control()->outcnt()
  isMainLoop : Bool             -- _cl->is_main_loop()
  preEndExists : Bool           -- _cl->find_pre_loop_end() != nullptr
  preEndLimitIsOpaque1 : Bool   -- pre_end->limit()->Opcode() == Op_Opaque1
  deriving Repr, DecidableEq

/-- The distinct named return states of `VLoop::check_preconditions_helper`
(the `VLoop::SUCCESS` / `VLoop::FAILURE_*` string constants). -/
inductive PrecondResult where
  | success
  | failureVectorWidth
  | failureValidCountedLoop
  | failureAlreadyVectorized
  | failureUnrollOnly
  | failureControlFlow
  | failureBackedge
  | failurePreLoopLimit
  deriving Repr, DecidableEq

/-- `VLoop::check_preconditions_helper` (vectorization.cpp lines 1377-1435).
The two early returns of `FAILURE_PRE_LOOP_LIMIT` (pre-loop end missing;
its limit not an `Opaque1`) are merged into one disjunctive guard. -/
def check_preconditions_helper (s : LoopInput) : PrecondResult :=
  -- Only accept vector width that is power of 2
  if s.vectorWidth < 2 ∨ isPow2 s.vectorWidth = false then .failureVectorWidth
  -- Only accept valid counted loops (int)
  else if s.validCountedLoop = false then .failureValidCountedLoop
  else if s.isVectorizedLoop = true then .failureAlreadyVectorized
  else if s.isUnrollOnly = true then .failureUnrollOnly
  -- Check for control flow in the body
  else if s.clExitCtrlIsCl = false ∧ s.allowCfg = false then .failureControlFlow
  -- Make sure there are no extra control users of the loop backedge
  else if s.backControlOutcnt ≠ 1 then .failureBackedge
  -- For a main loop the pre-loop must end with an Opaque1 limit
  else if s.isMainLoop = true ∧ (s.preEndExists = false ∨ s.preEndLimitIsOpaque1 = false) then
    .failurePreLoopLimit
  else .success

/-- `VLoop::check_preconditions`: true exactly when the helper reports
`SUCCESS`. -/
def check_preconditions (s : LoopInput) : Bool :=
  check_preconditions_helper s == .success

/-! ### VPointer address pattern matching (vectorization.cpp lines 161-412)

IR expression nodes are embedded as trees.  The opcodes are exactly those the
matcher inspects; every other node is `other` (carrying its id, its basic
type, and the two oracle answers the matcher can ask about it).  The loop
oracles (`is_loop_member`, control dominance over the pre-loop head) are
capability interfaces of the host compiler and are passed in as functions. -/
inductive BType where
  | int
  | long
  deriving Repr, DecidableEq

inductive VNode where
  | iv                                   -- the induction-variable phi
  | conI (v : ℤ)                         -- Op_ConI
  | conL (v : ℤ) (fitsInt : Bool)        -- Op_ConL; fitsInt: find_long_type()->higher_equal(TypeLong::INT)
  | addI (a b : VNode)                   -- Op_AddI
  | addL (a b : VNode)                   -- Op_AddL
  | subI (a b : VNode)                   -- Op_SubI
  | subL (a b : VNode)                   -- Op_SubL
  | mulI (a b : VNode)                   -- Op_MulI
  | lshiftI (a b : VNode)                -- Op_LShiftI
  | lshiftL (a b : VNode)                -- Op_LShiftL
  | convI2L (a : VNode)                  -- Op_ConvI2L
  | castII (a : VNode)                   -- Op_CastII
  | other (id : ℕ) (bt : BType)          -- any other node
  deriving Repr, DecidableEq

/-- `n->is_Con()` restricted to the constants the matcher reads. -/
def VNode.isCon : VNode → Bool
  | .conI _ => true
  | .conL _ _ => true
  | _ => false

/-- `n->get_int()` (meaningful on constants only). -/
def VNode.getInt : VNode → ℤ
  | .conI v => v
  | .conL v _ => v
  | _ => 0

/-- `n->bottom_type()->basic_type()` restricted to T_INT / T_LONG. -/
def VNode.bt : VNode → BType
  | .iv => .int
  | .conI _ => .int
  | .conL _ _ => .long
  | .addI _ _ => .int
  | .addL _ _ => .long
  | .subI _ _ => .int
  | .subL _ _ => .long
  | .mulI _ _ => .int
  | .lshiftI _ _ => .int
  | .lshiftL _ _ => .long
  | .convI2L _ => .long
  | .castII _ => .int
  | .other _ t => t

/-- `SubNode::make(zero, n, bt)` with the matching `zerocon(bt)`. -/
def SubNode_make_zero (n : VNode) : VNode :=
  match n.bt with
  | .int => .subI (.conI 0) n
  | .long => .subL (.conL 0 true) n

/-- `AddNode::make(a, b, bt)`. -/
def AddNode_make (a b : VNode) (t : BType) : VNode :=
  match t with
  | .int => .addI a b
  | .long => .addL a b

/-- `LShiftNode::make(a, con, bt)`. -/
def LShiftNode_make (a con : VNode) (t : BType) : VNode :=
  match t with
  | .int => .lshiftI a con
  | .long => .lshiftL a con

/-- C++ `x << k` on int, with non-negative shift counts (as produced by the
matcher's constant shifts): multiplication by `2^k`. -/
def cppShl (x k : ℤ) : ℤ := x * 2 ^ k.toNat

/-- The host-compiler oracles and flags a `VPointer` run depends on:
loop membership (`is_loop_member`), whether the loop is a main loop, the
dominance test against the pre-loop head, and the analyze-only mode. -/
structure MatchEnv where
  member : VNode → Bool        -- is_loop_member(n)
  mainLoop : Bool              -- lpt()->_head->as_CountedLoop()->is_main_loop()
  domPreHead : VNode → Bool    -- is_dominator(ctrl(n), pre_loop_head)
  analyzeOnly : Bool           -- _analyze_only

/-- `VPointer::invariant(n)` (vectorization.cpp lines 143-159). -/
def pinvariant (e : MatchEnv) (n : VNode) : Bool :=
  if e.member n = false then
    (if e.mainLoop then e.domPreHead n else true)
  else false

/-- The mutable `VPointer` fields the matcher updates, plus the shared
analyze-only node stack (`_nstack`, pushed pairs of node and `_stack_idx`). -/
structure PState where
  scale : ℤ                    -- _scale
  offset : ℤ                   -- _offset
  invar : Option VNode         -- _invar
  nstack : List (VNode × ℕ)    -- nodes pushed on _nstack
  stackIdx : ℕ                 -- _stack_idx
  deriving Repr, DecidableEq

/-- `if (_analyze_only && is_loop_member(n)) { _nstack->push(n, _stack_idx++); }` -/
def pushIf (e : MatchEnv) (st : PState) (n : VNode) : PState :=
  if e.analyzeOnly && e.member n then
    { st with nstack := st.nstack ++ [(n, st.stackIdx)], stackIdx := st.stackIdx + 1 }
  else st

/-- `VPointer::maybe_negate_invar` (lines 353-367); `register_if_new` is
value-numbering and is the identity on the tree embedding. -/
def maybe_negate_invar (negate : Bool) (invar : VNode) : VNode :=
  if negate then SubNode_make_zero invar else invar

/-- `VPointer::maybe_add_to_invar` (lines 382-412): negate if requested, widen
the 32-bit side through `ConvI2L` when combining mixed widths, and combine
with `AddNode::make`. -/
def maybe_add_to_invar (st : PState) (newInvar : VNode) (negate : Bool) : PState :=
  let ni := maybe_negate_invar negate newInvar
  match st.invar with
  | none => { st with invar := some ni }
  | some cur =>
    let bt : BType := if ni.bt = .long ∨ cur.bt = .long then .long else .int
    let cur2 := if cur.bt ≠ bt then VNode.convI2L cur else cur
    let ni2 := if ni.bt ≠ bt then VNode.convI2L ni else ni
    { st with invar := some (AddNode_make cur2 ni2 bt) }

/-- `VPointer::offset_plus_k` (vectorization.cpp lines 277-351).  Returns the
C++ boolean result together with the (possibly mutated) state.  This function
makes no recursive calls. -/
def offset_plus_k (e : MatchEnv) (st : PState) (n : VNode) (negate : Bool) : Bool × PState :=
  match n with
  | .conI v => (true, { st with offset := st.offset + (if negate then -v else v) })
  | .conL v fits =>
    -- Okay if value fits into an int
    if fits then (true, { st with offset := st.offset + (if negate then -v else v) })
    else (false, st)
  | _ =>
    let st1 := pushIf e st n
    let viaAddSub : Option (Bool × PState) :=
      match n with
      | .addI a b =>
        if b.isCon ∧ pinvariant e a then
          some (true,
            { (maybe_add_to_invar st1 a negate) with
              offset := st1.offset + (if negate then -(b.getInt) else b.getInt) })
        else if a.isCon ∧ pinvariant e b then
          some (true,
            maybe_add_to_invar
              { st1 with offset := st1.offset + (if negate then -(a.getInt) else a.getInt) }
              b negate)
        else none
      | .subI a b =>
        if b.isCon ∧ pinvariant e a then
          some (true,
            { (maybe_add_to_invar st1 a negate) with
              offset := st1.offset + (if ¬negate then -(b.getInt) else b.getInt) })
        else if a.isCon ∧ pinvariant e b then
          some (true,
            maybe_add_to_invar
              { st1 with offset := st1.offset + (if negate then -(a.getInt) else a.getInt) }
              b (¬negate))
        else none
      | _ => none
    match viaAddSub with
    | some res => res
    | none =>
      if e.member n = false then
        -- strip one ConvI2L and then one CastII before the invariant check
        let n' := match n with
          | .convI2L a => a
          | _ => n
        let n'' := match n' with
          | .castII a => a
          | _ => n'
        if pinvariant e n'' then (true, maybe_add_to_invar st1 n'' negate)
        else (false, st1)
      else (false, st1)

/-- `VPointer::scaled_iv_plus_offset` (vectorization.cpp lines 164-202).
In the source this calls `scaled_iv(n)` on the same node first; that call is
inlined here (the standalone `scaled_iv` below is the same expression), so
that the recursion is structural on the node.  Returns the C++ boolean result
together with the (possibly mutated) state: mutations made by failed
sub-matches persist, exactly as in the source. -/
def scaled_iv_plus_offset (e : MatchEnv) (st : PState) (n : VNode) : Bool × PState :=
  -- inlined body of scaled_iv(n)
  let siRes : Bool × PState :=
    if st.scale ≠ 0 then (false, st)    -- already found a scale
    else if n = .iv then (true, { st with scale := 1 })
    else
      let st1 := pushIf e st n
      match n with
      | .mulI a b =>
        if a = .iv ∧ b.isCon then (true, { st1 with scale := b.getInt })
        else if b = .iv ∧ a.isCon then (true, { st1 with scale := a.getInt })
        else (false, st1)
      | .lshiftI a b =>
        if a = .iv ∧ b.isCon then (true, { st1 with scale := cppShl 1 b.getInt })
        else (false, st1)
      | .convI2L a => scaled_iv_plus_offset e st1 a
      | .castII a => scaled_iv_plus_offset e st1 a
      | .lshiftL a b =>
        if b.isCon then
          if st1.scale = 0 then      -- !has_iv()
            -- temporary VPointer object: fresh fields, shared nstack, copied stack_idx
            let tmp : PState := { scale := 0, offset := 0, invar := none,
                                  nstack := st1.nstack, stackIdx := st1.stackIdx }
            let res := scaled_iv_plus_offset e tmp a
            if res.1 then
              let st2 := { st1 with
                scale := cppShl res.2.scale b.getInt,
                offset := st1.offset + cppShl res.2.offset b.getInt,
                nstack := res.2.nstack }
              let st3 := match res.2.invar with
                | some inv => maybe_add_to_invar st2 (LShiftNode_make inv b inv.bt) false
                | none => st2
              (true, st3)
            else (false, { st1 with nstack := res.2.nstack })
          else (false, st1)
        else (false, st1)
      | _ => (false, st1)
  if siRes.1 then (true, siRes.2)
  else
    let (ok2, st2) := offset_plus_k e siRes.2 n false
    if ok2 then (true, st2)
    else
      match n with
      | .addI a b =>
        -- if (offset_plus_k(n->in(2)) && scaled_iv_plus_offset(n->in(1))) return true;
        let (okA, stA) := offset_plus_k e st2 b false
        let resB := if okA then scaled_iv_plus_offset e stA a else (false, stA)
        if okA && resB.1 then (true, resB.2)
        else
          -- if (offset_plus_k(n->in(1)) && scaled_iv_plus_offset(n->in(2))) return true;
          let (okC, stC) := offset_plus_k e resB.2 a false
          let resD := if okC then scaled_iv_plus_offset e stC b else (false, stC)
          if okC && resD.1 then (true, resD.2) else (false, resD.2)
      | .subI a b =>
        -- if (offset_plus_k(n->in(2), true) && scaled_iv_plus_offset(n->in(1))) return true;
        let (okA, stA) := offset_plus_k e st2 b true
        let resB := if okA then scaled_iv_plus_offset e stA a else (false, stA)
        if okA && resB.1 then (true, resB.2)
        else
          -- if (offset_plus_k(n->in(1)) && scaled_iv_plus_offset(n->in(2))) { _scale *= -1; return true; }
          let (okC, stC) := offset_plus_k e resB.2 a false
          let resD := if okC then scaled_iv_plus_offset e stC b else (false, stC)
          if okC && resD.1 then (true, { resD.2 with scale := resD.2.scale * (-1) })
          else (false, resD.2)
      | .subL a b =>
        let (okA, stA) := offset_plus_k e st2 b true
        let resB := if okA then scaled_iv_plus_offset e stA a else (false, stA)
        if okA && resB.1 then (true, resB.2)
        else
          let (okC, stC) := offset_plus_k e resB.2 a false
          let resD := if okC then scaled_iv_plus_offset e stC b else (false, stC)
          if okC && resD.1 then (true, { resD.2 with scale := resD.2.scale * (-1) })
          else (false, resD.2)
      | _ => (false, st2)

/-- `VPointer::scaled_iv` (vectorization.cpp lines 205-273).  Its recursive
cases (`ConvI2L`, `CastII`, `LShiftL`) recurse into `scaled_iv_plus_offset` on
the shift/conversion input; this is the expression inlined as the first step
of `scaled_iv_plus_offset` above. -/
def scaled_iv (e : MatchEnv) (st : PState) (n : VNode) : Bool × PState :=
  if st.scale ≠ 0 then (false, st)    -- already found a scale
  else if n = .iv then (true, { st with scale := 1 })
  else
    let st1 := pushIf e st n
    match n with
    | .mulI a b =>
      if a = .iv ∧ b.isCon then (true, { st1 with scale := b.getInt })
      else if b = .iv ∧ a.isCon then (true, { st1 with scale := a.getInt })
      else (false, st1)
    | .lshiftI a b =>
      if a = .iv ∧ b.isCon then (true, { st1 with scale := cppShl 1 b.getInt })
      else (false, st1)
    | .convI2L a => scaled_iv_plus_offset e (pushIf e st (.convI2L a)) a
    | .castII a => scaled_iv_plus_offset e (pushIf e st (.castII a)) a
    | .lshiftL a b =>
      if b.isCon then
        if st1.scale = 0 then      -- !has_iv()
          let tmp : PState := { scale := 0, offset := 0, invar := none,
                                nstack := st1.nstack, stackIdx := st1.stackIdx }
          let res := scaled_iv_plus_offset e tmp a
          if res.1 then
            let st2 := { st1 with
              scale := cppShl res.2.scale b.getInt,
              offset := st1.offset + cppShl res.2.offset b.getInt,
              nstack := res.2.nstack }
            let st3 := match res.2.invar with
              | some inv => maybe_add_to_invar st2 (LShiftNode_make inv b inv.bt) false
              | none => st2
            (true, st3)
          else (false, { st1 with nstack := res.2.nstack })
        else (false, st1)
      else (false, st1)
    | _ => (false, st1)

/-- A trivial oracle environment (nothing is a loop member) and a state that
has already recorded a scale, used as concrete witness inputs. -/
def trivEnv : MatchEnv :=
  { member := fun _ => false, mainLoop := false,
    domPreHead := fun _ => true, analyzeOnly := false }

def oneScaleState : PState :=
  { scale := 1, offset := 0, invar := none, nstack := [], stackIdx := 0 }

def zeroScaleState : PState :=
  { scale := 0, offset := 0, invar := none, nstack := [], stackIdx := 0 }

/-- A structural loop-membership oracle for witness inputs: a node is in the
loop iff the induction variable occurs in it. -/
def containsIv : VNode → Bool
  | .iv => true
  | .addI a b | .addL a b | .subI a b | .subL a b | .mulI a b
  | .lshiftI a b | .lshiftL a b => containsIv a || containsIv b
  | .convI2L a | .castII a => containsIv a
  | _ => false

def memEnv : MatchEnv :=
  { member := containsIv, mainLoop := false, domPreHead := fun _ => true, analyzeOnly := false }

/-! ### VLoopDependenceGraph::build (vectorization.cpp lines 1855-1926)

One dependence node per in-body memory node; per slice, edges from the root to
the slice head, from a fresh slice sink to the global sink, pairwise edges in
predecessor-first order, and head/sink links for nodes without incoming or
outgoing same-slice dependences.  The `VPointer` comparison
(`!VPointer::not_equal(p1.cmp(p2))`) is abstracted as the oracle `notEq` on
node ids (the `cmp` implementation lives in vectorization.hpp). -/

/-- A memory node of a slice: its node id and whether it is a load. -/
structure MNode where
  id : ℕ
  isLoad : Bool
  deriving Repr, DecidableEq

/-- One memory slice as produced by `VLoopMemorySlices::get_slice`: the head
phi node id and the slice nodes, index 0 nearest the tail ("last is first",
i.e. the last element is first in program order). -/
structure DSlice where
  headId : ℕ
  nodes : List MNode
  deriving Repr, DecidableEq

/-- Vertices of the dependence graph: the global root and sink, the per-memory
node `DependenceNode`s, and the per-slice sentinel sinks. -/
inductive GNode where
  | root
  | sinkG
  | mem (id : ℕ)
  | sliceSink (i : ℕ)
  deriving Repr, DecidableEq

/-- `DependenceNode::in_cnt()` over an explicit edge list. -/
def inCnt (es : List (GNode × GNode)) (g : GNode) : ℕ :=
  es.countP (fun ed => ed.2 == g)

/-- The condition under which `build` adds a dependence edge `s1 → s2`:
not a load-after-load pair, and the VPointer comparison is not provably
not-equal. -/
def edgeCondB (notEq : ℕ → ℕ → Bool) (s1 s2 : MNode) : Bool :=
  !(s1.isLoad && s2.isLoad) && !notEq s1.id s2.id

/-- The pairwise edges out of `s1` towards the later slice nodes. -/
def pairList (notEq : ℕ → ℕ → Bool) (s1 : MNode) (later : List MNode) :
    List (GNode × GNode) :=
  (later.filter (fun s2 => edgeCondB notEq s1 s2)).map
    (fun s2 => (GNode.mem s1.id, GNode.mem s2.id))

/-- The inner loop of `VLoopDependenceGraph::build` (lines 1890-1916) over one
slice, iterating the slice nodes in predecessor-first order: link to the slice
head when no dependence has arrived yet, add the pairwise edges, and link to
the slice sink when no pairwise edge was added. -/
def processSlice (notEq : ℕ → ℕ → Bool) (i headId : ℕ) :
    List MNode → List (GNode × GNode) → List (GNode × GNode)
  | [], es => es
  | s1 :: rest, es =>
    -- If no dependency yet, use slice_head
    let es1 := if inCnt es (GNode.mem s1.id) = 0
               then es ++ [(GNode.mem headId, GNode.mem s1.id)] else es
    let pe := pairList notEq s1 rest
    let es2 := es1 ++ pe
    -- if sink_dependent, make_edge(get_node(s1), slice_sink)
    let es3 := if pe.isEmpty then es2 ++ [(GNode.mem s1.id, GNode.sliceSink i)] else es2
    processSlice notEq i headId rest es3

/-- The outer loop of `VLoopDependenceGraph::build` (lines 1874-1917): per
slice, wire the head to the root and a fresh slice sink to the global sink,
then process the slice pairs. -/
def buildAux (notEq : ℕ → ℕ → Bool) : ℕ → List DSlice → List (GNode × GNode) →
    List (GNode × GNode)
  | _, [], es => es
  | t, sl :: rest, es =>
    let es1 := es ++ [(GNode.root, GNode.mem sl.headId)]
    let es2 := es1 ++ [(GNode.sliceSink t, GNode.sinkG)]
    let es3 := processSlice notEq t sl.headId sl.nodes.reverse es2
    buildAux notEq (t + 1) rest es3

/-- `VLoopDependenceGraph::build`, as the edge list it creates. -/
def build (notEq : ℕ → ℕ → Bool) (slices : List DSlice) : List (GNode × GNode) :=
  buildAux notEq 0 slices []

/-! ### VLoopDependenceGraph::compute_max_depth (vectorization.cpp 1928-1962)

A body node carries its node id, whether it is a Phi, and the list of
predecessor ids delivered by PredsIterator. The `_depth` array is modelled
as a function from ids to naturals, initialized to all zeros
(`_depth.at_put_grow(_body.body().length()-1, 0)`). One `for` sweep over the
body updates each non-phi in place (later reads in the same sweep observe
earlier writes, as in the C++), and the `do ... while(again)` loop is given
fuel; the second component of the result records whether it converged. -/
structure BNode where
  id : ℕ
  isPhi : Bool
  preds : List ℕ
deriving DecidableEq, Repr

def inBody (B : List BNode) (q : ℕ) : Bool :=
  B.any (fun m => m.id == q)

def dIn (B : List BNode) (dep : ℕ → ℕ) (n : BNode) : ℕ :=
  n.preds.foldl (fun acc q => if inBody B q = true then max acc (dep q) else acc) 0

def sweepStep (B : List BNode) (st : (ℕ → ℕ) × Bool) (n : BNode) : (ℕ → ℕ) × Bool :=
  if n.isPhi = true then st
  else if dIn B st.1 n + 1 ≠ st.1 n.id then
    (fun m => if m = n.id then dIn B st.1 n + 1 else st.1 m, true)
  else st

def sweep (B : List BNode) (dep : ℕ → ℕ) : (ℕ → ℕ) × Bool :=
  B.foldl (sweepStep B) (dep, false)

def computeMaxDepthAux (B : List BNode) : ℕ → (ℕ → ℕ) → ((ℕ → ℕ) × Bool)
  | 0, dep => (dep, false)
  | fuel + 1, dep =>
    let r := sweep B dep
    if r.2 = true then computeMaxDepthAux B fuel r.1 else (r.1, true)

def compute_max_depth (B : List BNode) (fuel : ℕ) : (ℕ → ℕ) × Bool :=
  computeMaxDepthAux B fuel (fun _ => 0)

/-! ### VLoopDependenceGraph::independent and mutually_independent
(vectorization.cpp 1964-1996 and 2006-2030)

Both functions run a backward BFS over the PredsIterator edges, pruned to
in-body predecessors whose depth is at least a minimum depth. The
Unique_Node_List worklist is modelled by a saturation of the visited id
list; `B.length + 1` rounds always suffice to reach the closure, since each
non-fixpoint round adds at least one new in-body id. The early `return
false` of the C++ is equivalent to asking, after saturation, whether some
reachable node has a pruned predecessor in the target set. -/
def predsOf (B : List BNode) (q : ℕ) : List ℕ :=
  match B.find? (fun m => m.id == q) with
  | some n => n.preds
  | none => []

def pruned (B : List BNode) (dep : ℕ → ℕ) (m : ℕ) (q : ℕ) : List ℕ :=
  (predsOf B q).filter (fun p => inBody B p && decide (m ≤ dep p))

def closeStep (B : List BNode) (dep : ℕ → ℕ) (m : ℕ) (v : List ℕ) : List ℕ :=
  v ++ ((v.flatMap (pruned B dep m)).dedup.filter (fun p => decide (p ∉ v)))

def closeN (B : List BNode) (dep : ℕ → ℕ) (m : ℕ) : ℕ → List ℕ → List ℕ
  | 0, v => v
  | f + 1, v => closeN B dep m f (closeStep B dep m v)

def reachClosure (B : List BNode) (dep : ℕ → ℕ) (m : ℕ) (start : List ℕ) : List ℕ :=
  closeN B dep m (B.length + 1) start

def foundB (B : List BNode) (dep : ℕ → ℕ) (m : ℕ) (start target : List ℕ) : Bool :=
  (reachClosure B dep m start).any
    (fun q => (pruned B dep m q).any (fun p => decide (p ∈ target)))

def independent (B : List BNode) (dep : ℕ → ℕ) (s1 s2 : ℕ) : Bool :=
  let d1 := dep s1
  let d2 := dep s2
  if d1 = d2 then s1 != s2
  else
    let deep := if d2 < d1 then s1 else s2
    let shallow := if d2 < d1 then s2 else s1
    let minD := min d1 d2
    !(foundB B dep minD [deep] [shallow])

def mutually_independent (B : List BNode) (dep : ℕ → ℕ) : List ℕ → Bool
  | [] => true
  | s0 :: rest =>
    let minD := (s0 :: rest).foldl (fun a q => min a (dep q)) (dep s0)
    !(foundB B dep minD (s0 :: rest) (s0 :: rest))

/-- Reachability through the pruned predecessor edges, starting anywhere in
`start`. -/
inductive ReachP (B : List BNode) (dep : ℕ → ℕ) (m : ℕ) (start : List ℕ) : ℕ → Prop
  | base (q : ℕ) (hq : q ∈ start) : ReachP B dep m start q
  | step (q p : ℕ) (hq : ReachP B dep m start q) (hp : p ∈ pruned B dep m q) :
      ReachP B dep m start p

theorem isPow2NatAux_iff (fuel n : ℕ) (hn : n ≤ fuel) :
    isPow2NatAux n fuel = true ↔ ∃ k : ℕ, n = 2 ^ k := by
  induction fuel generalizing n with
  | zero =>
    interval_cases n
    simp only [isPow2NatAux]
    constructor
    · intro h; exact absurd h (by simp)
    · rintro ⟨k, hk⟩; exact absurd hk.symm (by positivity)
  | succ f ih =>
    match n with
    | 0 =>
      simp only [isPow2NatAux]
      constructor
      · intro h; exact absurd h (by simp)
      · rintro ⟨k, hk⟩; exact absurd hk.symm (by positivity)
    | 1 =>
      simp only [isPow2NatAux]
      exact ⟨fun _ => ⟨0, rfl⟩, fun _ => trivial⟩
    | (m+2) =>
      simp only [isPow2NatAux, Bool.and_eq_true, beq_iff_eq]
      constructor
      · rintro ⟨heven, hrec⟩
        obtain ⟨k, hk⟩ := (ih ((m+2)/2) (by omega)).mp hrec
        have h2 : (m+2) % 2 = 0 := heven
        exact ⟨k + 1, by omega⟩
      · rintro ⟨k, hk⟩
        match k with
        | 0 => omega
        | (j+1) =>
          have h2 : m + 2 = 2 * 2 ^ j := by rw [hk]; ring
          refine ⟨by omega, ?_⟩
          exact (ih ((m+2)/2) (by omega)).mpr ⟨j, by omega⟩

theorem isPow2Nat_iff (n : ℕ) : isPow2Nat n = true ↔ ∃ k : ℕ, n = 2 ^ k :=
  isPow2NatAux_iff n n le_rfl

theorem isPow2_iff (x : ℤ) : isPow2 x = true ↔ ∃ k : ℕ, x = 2 ^ k := by
  simp only [isPow2, Bool.and_eq_true, decide_eq_true_eq, isPow2Nat_iff]
  constructor
  · rintro ⟨hpos, k, hk⟩
    refine ⟨k, ?_⟩
    have : ((x.toNat : ℤ)) = ((2 ^ k : ℕ) : ℤ) := by exact_mod_cast congrArg (Nat.cast : ℕ → ℤ) hk
    rw [Int.toNat_of_nonneg (le_of_lt hpos)] at this
    simpa using this
  · rintro ⟨k, hk⟩
    subst hk
    refine ⟨by positivity, k, ?_⟩
    have : ((2:ℤ)^k).toNat = (2:ℕ)^k := by
      have h : ((2:ℤ))^k = (((2:ℕ)^k : ℕ) : ℤ) := by push_cast; ring
      rw [h, Int.toNat_natCast]
    exact this

theorem isPow2_pos {x : ℤ} (h : isPow2 x = true) : 0 < x := by
  obtain ⟨k, hk⟩ := (isPow2_iff x).mp h
  subst hk; positivity

theorem isPow2_dvd_of_le {a b : ℤ} (ha : isPow2 a = true) (hb : isPow2 b = true)
    (hab : a ≤ b) : a ∣ b := by
  obtain ⟨j, hj⟩ := (isPow2_iff a).mp ha
  obtain ⟨k, hk⟩ := (isPow2_iff b).mp hb
  subst hj; subst hk
  have hjk : j ≤ k := by
    by_contra hlt
    push_neg at hlt
    have : (2:ℤ) ^ k < 2 ^ j := by
      exact pow_lt_pow_right₀ (by norm_num) hlt
    omega
  exact pow_dvd_pow 2 hjk

theorem isPow2_mul {a b : ℤ} (ha : isPow2 a = true) (hb : isPow2 b = true) :
    isPow2 (a * b) = true := by
  obtain ⟨j, hj⟩ := (isPow2_iff a).mp ha
  obtain ⟨k, hk⟩ := (isPow2_iff b).mp hb
  exact (isPow2_iff _).mpr ⟨j + k, by rw [hj, hk, pow_add]⟩

theorem eq4State_empty_iff (C Cp aw : ℤ) :
    eq4State C Cp aw = .empty ↔
    ((aw ≤ |Cp| ∧ C % aw ≠ 0) ∨ (|Cp| < aw ∧ C % |Cp| ≠ 0)) := by
  unfold eq4State
  split_ifs with h1 h2 <;> simp_all

theorem eq4State_trivial_iff (C Cp aw : ℤ) :
    eq4State C Cp aw = .trivial ↔ (aw ≤ |Cp| ∧ C % aw = 0) := by
  unfold eq4State
  split_ifs with h1 h2 <;> simp_all

theorem eq4State_constrained_iff (C Cp aw : ℤ) :
    eq4State C Cp aw = .constrained ↔ (|Cp| < aw ∧ C % |Cp| = 0) := by
  unfold eq4State
  split_ifs with h1 h2 <;> simp_all

/-- Exact characterization of the `Empty` outcomes of `solve`. -/
theorem solve_empty_iff_aux (i : SolverInput) :
    (∃ s, solve i = .emptySol s) ↔
    (¬ (isPow2 |i.preStride| = true) ∨
     (|i.scale| = 0 ∨ ¬ (isPow2 |i.scale| = true)) ∨
     C_main i % i.aw ≠ 0 ∨
     ((i.aw ≤ |C_pre i| ∧ C_const i % i.aw ≠ 0) ∨
      (|C_pre i| < i.aw ∧ C_const i % |C_pre i| ≠ 0)) ∨
     ((i.aw ≤ |C_pre i| ∧ C_invar i % i.aw ≠ 0) ∨
      (|C_pre i| < i.aw ∧ C_invar i % |C_pre i| ≠ 0)) ∨
     ((i.aw ≤ |C_pre i| ∧ C_init i % i.aw ≠ 0) ∨
      (|C_pre i| < i.aw ∧ C_init i % |C_pre i| ≠ 0))) := by
  constructor
  · rintro ⟨s, hs⟩
    unfold solve at hs
    split_ifs at hs with h1 h2 h3 h4 h5
    · rw [eq4State_empty_iff, eq4State_empty_iff, eq4State_empty_iff] at h5
      rcases h5 with h | h | h
      · exact Or.inr (Or.inr (Or.inr (Or.inl h)))
      · exact Or.inr (Or.inr (Or.inr (Or.inr (Or.inl h))))
      · exact Or.inr (Or.inr (Or.inr (Or.inr (Or.inr h))))
    · exact Or.inr (Or.inr (Or.inl h3))
    · rcases not_and_or.mp h2 with h | h
      · exact Or.inr (Or.inl (Or.inl (not_ne_iff.mp h)))
      · exact Or.inr (Or.inl (Or.inr h))
    · exact Or.inl h1
  · intro h
    unfold solve
    split_ifs with h1 h2 h3 h4 h5
    · -- trivial branch: the right-hand side cannot hold
      exfalso
      rw [eq4State_trivial_iff, eq4State_trivial_iff, eq4State_trivial_iff] at h4
      rcases h with h | h | h | h | h | h
      · exact h h1
      · rcases h with h | h
        · exact h2.1 h
        · exact h h2.2
      · exact h h3
      · rcases h with ⟨ha, hb⟩ | ⟨ha, hb⟩
        · exact hb h4.1.2
        · have := h4.1.1; omega
      · rcases h with ⟨ha, hb⟩ | ⟨ha, hb⟩
        · exact hb h4.2.1.2
        · have := h4.2.1.1; omega
      · rcases h with ⟨ha, hb⟩ | ⟨ha, hb⟩
        · exact hb h4.2.2.2
        · have := h4.2.2.1; omega
    · exact ⟨_, rfl⟩
    · -- constrained branch: the right-hand side cannot hold
      exfalso
      rw [eq4State_empty_iff, eq4State_empty_iff, eq4State_empty_iff] at h5
      rcases h with h | h | h | h | h | h
      · exact h h1
      · rcases h with h | h
        · exact h2.1 h
        · exact h h2.2
      · exact h h3
      · exact h5 (Or.inl h)
      · exact h5 (Or.inr (Or.inl h))
      · exact h5 (Or.inr (Or.inr h))
    · exact ⟨_, rfl⟩
    · exact ⟨_, rfl⟩
    · exact ⟨_, rfl⟩

/-- C3: `AlignmentSolver::solve` returns `Empty` exactly when at least one of:
`|pre_stride|` is not a power of two; `|scale|` is zero or not a power of two;
`C_main % aw ≠ 0` (non-negative-remainder mod); or at least one of the three
sub-equations (for the `C_const`, `C_invar`, `C_init` terms) is EMPTY, i.e. for
that term `C` either `|C_pre| ≥ aw` with `C % aw ≠ 0`, or `|C_pre| < aw` with
`C % |C_pre| ≠ 0`. -/
theorem solve_empty_iff (i : SolverInput) :
    (∃ s, solve i = .emptySol s) ↔
    (¬ (isPow2 |i.preStride| = true) ∨
     (|i.scale| = 0 ∨ ¬ (isPow2 |i.scale| = true)) ∨
     C_main i % i.aw ≠ 0 ∨
     ((i.aw ≤ |C_pre i| ∧ C_const i % i.aw ≠ 0) ∨
      (|C_pre i| < i.aw ∧ C_const i % |C_pre i| ≠ 0)) ∨
     ((i.aw ≤ |C_pre i| ∧ C_invar i % i.aw ≠ 0) ∨
      (|C_pre i| < i.aw ∧ C_invar i % |C_pre i| ≠ 0)) ∨
     ((i.aw ≤ |C_pre i| ∧ C_init i % i.aw ≠ 0) ∨
      (|C_pre i| < i.aw ∧ C_init i % |C_pre i| ≠ 0))) :=
  solve_empty_iff_aux i

/-- In the `Constrained` branch of `solve` (both EQ4 gates passed), the facts
the solver's own assertions state: `|C_pre| < aw`, divisibility of the three
`C` terms by `|C_pre|`, and the shape of `q = aw / |C_pre|`. -/
theorem solve_constrained_core (i : SolverInput)
    (haw : isPow2 i.aw = true)
    (h1 : isPow2 |i.preStride| = true)
    (h2 : |i.scale| ≠ 0 ∧ isPow2 |i.scale| = true)
    (h4 : ¬ (eq4State (C_const i) (C_pre i) i.aw = .trivial ∧
             eq4State (C_invar i) (C_pre i) i.aw = .trivial ∧
             eq4State (C_init i) (C_pre i) i.aw = .trivial))
    (h5 : ¬ (eq4State (C_const i) (C_pre i) i.aw = .empty ∨
             eq4State (C_invar i) (C_pre i) i.aw = .empty ∨
             eq4State (C_init i) (C_pre i) i.aw = .empty)) :
    0 < |C_pre i| ∧ isPow2 |C_pre i| = true ∧ |C_pre i| < i.aw ∧
    |C_pre i| ∣ C_const i ∧ |C_pre i| ∣ C_invar i ∧ |C_pre i| ∣ C_init i ∧
    |C_pre i| * (i.aw.tdiv |C_pre i|) = i.aw ∧
    2 ≤ i.aw.tdiv |C_pre i| ∧ isPow2 (i.aw.tdiv |C_pre i|) = true := by
  push_neg at h5
  obtain ⟨h5a, h5b, h5c⟩ := h5
  have habs : |C_pre i| = |i.scale| * |i.preStride| := by
    unfold C_pre; exact abs_mul _ _
  have hpow : isPow2 |C_pre i| = true := by
    rw [habs]; exact isPow2_mul h2.2 h1
  have hpos : 0 < |C_pre i| := isPow2_pos hpow
  -- If aw ≤ |C_pre|, all three states are trivial or empty; none is empty, so
  -- all would be trivial, contradicting h4.  Hence |C_pre| < aw.
  have hlt : |C_pre i| < i.aw := by
    by_contra hge
    push_neg at hge
    apply h4
    refine ⟨?_, ?_, ?_⟩ <;>
      · rw [eq4State_trivial_iff]
        refine ⟨hge, ?_⟩
        by_contra hne
        first
          | exact h5a ((eq4State_empty_iff _ _ _).mpr (Or.inl ⟨hge, hne⟩))
          | exact h5b ((eq4State_empty_iff _ _ _).mpr (Or.inl ⟨hge, hne⟩))
          | exact h5c ((eq4State_empty_iff _ _ _).mpr (Or.inl ⟨hge, hne⟩))
  -- With |C_pre| < aw each state is constrained or empty; none is empty.
  have hca : C_const i % |C_pre i| = 0 := by
    by_contra hne
    exact h5a ((eq4State_empty_iff _ _ _).mpr (Or.inr ⟨hlt, hne⟩))
  have hcb : C_invar i % |C_pre i| = 0 := by
    by_contra hne
    exact h5b ((eq4State_empty_iff _ _ _).mpr (Or.inr ⟨hlt, hne⟩))
  have hcc : C_init i % |C_pre i| = 0 := by
    by_contra hne
    exact h5c ((eq4State_empty_iff _ _ _).mpr (Or.inr ⟨hlt, hne⟩))
  have hdvd_aw : |C_pre i| ∣ i.aw := isPow2_dvd_of_le hpow haw (le_of_lt hlt)
  obtain ⟨c, hc⟩ := hdvd_aw
  have hcq : i.aw.tdiv |C_pre i| = c := by
    rw [hc, Int.mul_tdiv_cancel_left c (by omega)]
  have hqeq : |C_pre i| * (i.aw.tdiv |C_pre i|) = i.aw := by rw [hcq, hc]
  have hq2 : 2 ≤ i.aw.tdiv |C_pre i| := by
    rw [hcq]
    nlinarith [isPow2_pos haw]
  have hqpow : isPow2 (i.aw.tdiv |C_pre i|) = true := by
    obtain ⟨j, hj⟩ := (isPow2_iff _).mp hpow
    obtain ⟨k, hk⟩ := (isPow2_iff _).mp haw
    have hjk : j ≤ k := by
      by_contra hgt
      push_neg at hgt
      have : (2:ℤ) ^ k < 2 ^ j := pow_lt_pow_right₀ (by norm_num) hgt
      omega
    rw [hcq]
    refine (isPow2_iff _).mpr ⟨k - j, ?_⟩
    have hmul : (2:ℤ) ^ j * c = 2 ^ k := by rw [← hj, ← hk, ← hc]
    have hsplit : (2:ℤ) ^ k = 2 ^ j * 2 ^ (k - j) := by
      rw [← pow_add]
      congr 1
      omega
    have h2j : (2:ℤ) ^ j ≠ 0 := by positivity
    exact mul_left_cancel₀ h2j (by rw [hmul, hsplit])
  exact ⟨hpos, hpow, hlt, Int.dvd_of_emod_eq_zero hca, Int.dvd_of_emod_eq_zero hcb,
         Int.dvd_of_emod_eq_zero hcc, hqeq, hq2, hqpow⟩

/-- C2: when `AlignmentSolver::solve` does not return `Empty`, it returns
`Trivial` exactly when all three sub-equations (for `C_const`, `C_invar`,
`C_init`) are TRIVIAL; otherwise it returns
`Constrained{mem_ref, q, r, invar, scale}` where `q = aw / |C_pre|` is an exact
integer quotient with `q ≥ 2`, a power of two, and
`r = (−C_const / (scale · pre_stride)) mod q` under the non-negative-remainder
convention, so `0 ≤ r < q`. -/
theorem solve_not_empty_cases (i : SolverInput)
    (haw : isPow2 i.aw = true)
    (hne : ∀ s, solve i ≠ .emptySol s) :
    (solve i = .trivialSol ↔
      (eq4State (C_const i) (C_pre i) i.aw = .trivial ∧
       eq4State (C_invar i) (C_pre i) i.aw = .trivial ∧
       eq4State (C_init i) (C_pre i) i.aw = .trivial)) ∧
    (solve i ≠ .trivialSol →
      solve i = .constrainedSol (i.aw.tdiv |C_pre i|)
        ((-(C_const i)).tdiv (i.scale * i.preStride) % (i.aw.tdiv |C_pre i|))
        i.invar i.scale ∧
      |C_pre i| * (i.aw.tdiv |C_pre i|) = i.aw ∧
      2 ≤ i.aw.tdiv |C_pre i| ∧
      isPow2 (i.aw.tdiv |C_pre i|) = true ∧
      0 ≤ (-(C_const i)).tdiv (i.scale * i.preStride) % (i.aw.tdiv |C_pre i|) ∧
      (-(C_const i)).tdiv (i.scale * i.preStride) % (i.aw.tdiv |C_pre i|) <
        i.aw.tdiv |C_pre i|) := by
  have hX : ¬ (¬ (isPow2 |i.preStride| = true) ∨
      (|i.scale| = 0 ∨ ¬ (isPow2 |i.scale| = true)) ∨
      C_main i % i.aw ≠ 0 ∨
      ((i.aw ≤ |C_pre i| ∧ C_const i % i.aw ≠ 0) ∨
       (|C_pre i| < i.aw ∧ C_const i % |C_pre i| ≠ 0)) ∨
      ((i.aw ≤ |C_pre i| ∧ C_invar i % i.aw ≠ 0) ∨
       (|C_pre i| < i.aw ∧ C_invar i % |C_pre i| ≠ 0)) ∨
      ((i.aw ≤ |C_pre i| ∧ C_init i % i.aw ≠ 0) ∨
       (|C_pre i| < i.aw ∧ C_init i % |C_pre i| ≠ 0))) := by
    intro h
    obtain ⟨s, hs⟩ := (solve_empty_iff_aux i).mpr h
    exact hne s hs
  push_neg at hX
  obtain ⟨hx1, hx2, hx3, hx4, hx5, hx6⟩ := hX
  have h2 : |i.scale| ≠ 0 ∧ isPow2 |i.scale| = true := ⟨hx2.1, hx2.2⟩
  have h5 : ¬ (eq4State (C_const i) (C_pre i) i.aw = .empty ∨
               eq4State (C_invar i) (C_pre i) i.aw = .empty ∨
               eq4State (C_init i) (C_pre i) i.aw = .empty) := by
    rw [eq4State_empty_iff, eq4State_empty_iff, eq4State_empty_iff]
    push_neg
    exact ⟨⟨fun hle => hx4.1 hle, fun hlt => hx4.2 hlt⟩,
           ⟨fun hle => hx5.1 hle, fun hlt => hx5.2 hlt⟩,
           ⟨fun hle => hx6.1 hle, fun hlt => hx6.2 hlt⟩⟩
  by_cases h4 : (eq4State (C_const i) (C_pre i) i.aw = .trivial ∧
                 eq4State (C_invar i) (C_pre i) i.aw = .trivial ∧
                 eq4State (C_init i) (C_pre i) i.aw = .trivial)
  · have hval : solve i = .trivialSol := by
      unfold solve
      rw [if_pos hx1, if_pos h2, if_pos hx3, if_pos h4]
    exact ⟨⟨fun _ => h4, fun _ => hval⟩, fun hnt => absurd hval hnt⟩
  · have hval : solve i = .constrainedSol (i.aw.tdiv |C_pre i|)
        ((-(C_const i)).tdiv (i.scale * i.preStride) % (i.aw.tdiv |C_pre i|))
        i.invar i.scale := by
      unfold solve
      rw [if_pos hx1, if_pos h2, if_pos hx3, if_neg h4, if_neg h5]
    obtain ⟨hpos, hpow, hlt, hdc, hdi, hdn, hqeq, hq2, hqpow⟩ :=
      solve_constrained_core i haw hx1 h2 h4 h5
    have hq0 : 0 < i.aw.tdiv |C_pre i| := by omega
    refine ⟨⟨fun h => ?_, fun h => absurd h h4⟩, fun _ => ?_⟩
    · rw [hval] at h; exact absurd h (by simp)
    · exact ⟨hval, hqeq, hq2, hqpow, Int.emod_nonneg _ (by omega),
             Int.emod_lt_of_pos _ hq0⟩

/-- Witness for `solve_not_empty_cases` at the spec's scenario S1. -/
theorem solve_not_empty_cases_witness :
    (isPow2 (s1Input.aw) = true) ∧
    (solve s1Input ≠ .trivialSol) ∧
    (solve s1Input = .constrainedSol (s1Input.aw.tdiv |C_pre s1Input|)
      ((-(C_const s1Input)).tdiv (s1Input.scale * s1Input.preStride) %
        (s1Input.aw.tdiv |C_pre s1Input|))
      s1Input.invar s1Input.scale) := by
  have hne : ∀ s, solve s1Input ≠ .emptySol s := by
    intro s h
    have hfix : solve s1Input = .constrainedSol 8 0 false 4 := by decide
    rw [hfix] at h
    exact AlignmentSolution.noConfusion h
  have hnt : solve s1Input ≠ .trivialSol := by
    intro h
    have hfix : solve s1Input = .constrainedSol 8 0 false 4 := by decide
    rw [hfix] at h
    exact AlignmentSolution.noConfusion h
  exact ⟨by decide, hnt,
    ((solve_not_empty_cases s1Input (by decide) hne).2 hnt).1⟩

/-- C1 (alignment soundness): whenever `AlignmentSolver::solve` returns
`Constrained{q, r, invar, scale}`, then for every integer `m`, every runtime
value of the invariant (`invar = C_invar · var_invar`, per the factorization
FAC_INVAR) and every runtime value `var_init` of a non-constant init, choosing
`pre_iter = m·q + r − invar/(scale·pre_stride) − init/pre_stride` (the invar
term omitted when no invariant is present, the init term omitted when init is
a compile-time constant) makes the address
`base + offset + invar + scale·(init + pre_stride·pre_iter + main_stride·main_iter)`
satisfy `adr % aw = 0` at main-loop iteration 0, assuming `base % aw = 0` and
the solver's assumption that `aw` is a power of two. -/
theorem solve_constrained_sound (i : SolverInput) (base q r m varInvar varInit : ℤ)
    (haw : isPow2 i.aw = true)
    (hbase : base % i.aw = 0)
    (hsol : solve i = .constrainedSol q r i.invar i.scale) :
    (base + i.offset + (if i.invar then C_invar i * varInvar else 0) +
     i.scale * ((if i.initIsCon then i.initCon else varInit) +
       i.preStride * (m * q + r
         - (if i.invar then (C_invar i * varInvar).tdiv (i.scale * i.preStride) else 0)
         - (if i.initIsCon then 0 else varInit.tdiv i.preStride)) +
       i.mainStride * 0)) % i.aw = 0 := by
  unfold solve at hsol
  split_ifs at hsol with h1 h2 h3 h4 h5
  injection hsol with hq hr _ _
  obtain ⟨hpos, hpow, hlt, hdc, hdi, hdn, hqeq, hq2, hqpow⟩ :=
    solve_constrained_core i haw h1 h2 h4 h5
  rw [show C_pre i = i.scale * i.preStride from rfl] at hpos hpow hlt hdc hdi hdn hqeq hq hr hq2
  rw [hq] at hr hq2
  have hd0 : i.scale * i.preStride ≠ 0 := by
    intro h
    rw [h] at hpos
    simp at hpos
  have hdq_aw : |i.scale * i.preStride| * q = i.aw := by rw [← hq]; exact hqeq
  -- d ∣ C_const, and the exact value of the truncated division
  obtain ⟨z, hz⟩ := (abs_dvd _ _).mp hdc
  have hnegdiv : (-(C_const i)).tdiv (i.scale * i.preStride) = -z := by
    have hneg : (-(C_const i)) = (i.scale * i.preStride) * (-z) := by rw [hz]; ring
    rw [hneg, Int.mul_tdiv_cancel_left _ hd0]
  have hq0 : 0 < q := by omega
  -- r = -z + q * t for t obtained from the euclidean mod
  have hrt : r = -z + q * (-((-z) / q)) := by
    rw [← hr, hnegdiv, Int.emod_def]
    ring
  -- the invar term cancels exactly
  have hIV : (i.scale * i.preStride) *
      (if i.invar then (C_invar i * varInvar).tdiv (i.scale * i.preStride) else 0) =
      (if i.invar then C_invar i * varInvar else 0) := by
    split
    · have hdvd : (i.scale * i.preStride) ∣ C_invar i * varInvar :=
        ((abs_dvd _ _).mp hdi).mul_right _
      rw [Int.tdiv_eq_ediv_of_dvd hdvd, Int.mul_ediv_cancel' hdvd]
    · ring
  -- the init term cancels exactly (when init is variable, pre_stride = ±1)
  have hIN : i.scale * (i.preStride * (if i.initIsCon then 0 else varInit.tdiv i.preStride)) =
      (if i.initIsCon then 0 else i.scale * varInit) := by
    split
    · ring
    · rename_i hcon
      have hCinit : C_init i = i.scale := by unfold C_init; rw [if_neg hcon]
      rw [hCinit] at hdn
      have hscale0 : i.scale ≠ 0 := by
        intro h
        exact h2.1 (by rw [h]; simp)
      obtain ⟨c, hc⟩ := (abs_dvd _ _).mp hdn
      have hunit : i.preStride * c = 1 := by
        have heq : i.scale * 1 = i.scale * (i.preStride * c) := by
          rw [mul_one]
          calc i.scale = i.scale * i.preStride * c := hc
          _ = i.scale * (i.preStride * c) := by ring
        exact (mul_left_cancel₀ hscale0 heq).symm
      have hps_dvd : i.preStride ∣ varInit := (isUnit_of_mul_eq_one _ _ hunit).dvd
      rw [Int.tdiv_eq_ediv_of_dvd hps_dvd, Int.mul_ediv_cancel' hps_dvd]
  have hCc : i.offset + (if i.initIsCon then i.scale * i.initCon else 0) = C_const i := by
    unfold C_const C_const_init
    split <;> ring
  -- reassemble the address
  have hkey : base + i.offset + (if i.invar then C_invar i * varInvar else 0) +
      i.scale * ((if i.initIsCon then i.initCon else varInit) +
        i.preStride * (m * q + r
          - (if i.invar then (C_invar i * varInvar).tdiv (i.scale * i.preStride) else 0)
          - (if i.initIsCon then 0 else varInit.tdiv i.preStride)) +
        i.mainStride * 0)
      = base + (C_const i + (i.scale * i.preStride) * r) + ((i.scale * i.preStride) * q) * m := by
    rw [← hCc]
    cases hinv : i.invar <;> cases hcon : i.initIsCon <;>
      simp only [hinv, hcon, Bool.false_eq_true, if_false, if_true] at hIV hIN ⊢ <;>
      linear_combination (-1 : ℤ) * hIV - hIN
  rw [hkey]
  apply Int.emod_eq_zero_of_dvd
  have hdvd_base : i.aw ∣ base := Int.dvd_of_emod_eq_zero hbase
  have hdvd_dq : i.aw ∣ (i.scale * i.preStride) * q := by
    rcases abs_cases (i.scale * i.preStride) with ⟨habs, _⟩ | ⟨habs, _⟩
    · rw [← hdq_aw, habs]
    · rw [← hdq_aw, habs]
      exact ⟨-1, by ring⟩
  have hdvd_cr : i.aw ∣ C_const i + (i.scale * i.preStride) * r := by
    have hEq : C_const i + (i.scale * i.preStride) * r =
        ((i.scale * i.preStride) * q) * (-((-z) / q)) := by
      rw [hrt, hz]
      ring
    rw [hEq]
    exact hdvd_dq.mul_right _
  exact dvd_add (dvd_add hdvd_base hdvd_cr) (hdvd_dq.mul_right m)

/-- Witness for `solve_constrained_sound` at scenario S1 with `base = 64`,
`m = 5`, `var_invar = 7`, `var_init = 9`. -/
theorem solve_constrained_sound_witness :
    (isPow2 s1Input.aw = true) ∧
    ((64:ℤ) % s1Input.aw = 0) ∧
    (solve s1Input = .constrainedSol 8 0 s1Input.invar s1Input.scale) ∧
    ((64 + s1Input.offset + (if s1Input.invar then C_invar s1Input * 7 else 0) +
      s1Input.scale * ((if s1Input.initIsCon then s1Input.initCon else 9) +
        s1Input.preStride * (5 * 8 + 0
          - (if s1Input.invar then
              (C_invar s1Input * 7).tdiv (s1Input.scale * s1Input.preStride) else 0)
          - (if s1Input.initIsCon then 0 else (9:ℤ).tdiv s1Input.preStride)) +
        s1Input.mainStride * 0)) % s1Input.aw = 0) :=
  ⟨by decide, by decide, by decide,
   solve_constrained_sound s1Input 64 8 0 5 7 9 (by decide) (by decide) (by decide)⟩

/-- C6: `VLoop::check_preconditions` succeeds iff the platform byte-vector
width is a power of two of at least 2, the loop is a valid counted integer
loop, it is not already vectorized, it is not marked unroll-only, there is no
in-body control flow unless the caller allows it, the loop backedge has
exactly one control user, and, when the loop is a main loop, a pre-loop end
with an `Opaque1` limit node exists; and on failure the helper yields the
distinct named reason of the first violated condition. -/
theorem check_preconditions_spec (s : LoopInput) :
    (check_preconditions s = true ↔
      ((2 ≤ s.vectorWidth ∧ isPow2 s.vectorWidth = true) ∧
       s.validCountedLoop = true ∧
       s.isVectorizedLoop = false ∧
       s.isUnrollOnly = false ∧
       (s.clExitCtrlIsCl = true ∨ s.allowCfg = true) ∧
       s.backControlOutcnt = 1 ∧
       (s.isMainLoop = true → s.preEndExists = true ∧ s.preEndLimitIsOpaque1 = true))) ∧
    (check_preconditions_helper s = .failureVectorWidth ↔
      (s.vectorWidth < 2 ∨ isPow2 s.vectorWidth = false)) ∧
    (check_preconditions_helper s = .failureValidCountedLoop ↔
      ((2 ≤ s.vectorWidth ∧ isPow2 s.vectorWidth = true) ∧
       s.validCountedLoop = false)) ∧
    (check_preconditions_helper s = .failureAlreadyVectorized ↔
      ((2 ≤ s.vectorWidth ∧ isPow2 s.vectorWidth = true) ∧
       s.validCountedLoop = true ∧ s.isVectorizedLoop = true)) ∧
    (check_preconditions_helper s = .failureUnrollOnly ↔
      ((2 ≤ s.vectorWidth ∧ isPow2 s.vectorWidth = true) ∧
       s.validCountedLoop = true ∧ s.isVectorizedLoop = false ∧
       s.isUnrollOnly = true)) ∧
    (check_preconditions_helper s = .failureControlFlow ↔
      ((2 ≤ s.vectorWidth ∧ isPow2 s.vectorWidth = true) ∧
       s.validCountedLoop = true ∧ s.isVectorizedLoop = false ∧
       s.isUnrollOnly = false ∧
       s.clExitCtrlIsCl = false ∧ s.allowCfg = false)) ∧
    (check_preconditions_helper s = .failureBackedge ↔
      ((2 ≤ s.vectorWidth ∧ isPow2 s.vectorWidth = true) ∧
       s.validCountedLoop = true ∧ s.isVectorizedLoop = false ∧
       s.isUnrollOnly = false ∧
       (s.clExitCtrlIsCl = true ∨ s.allowCfg = true) ∧
       s.backControlOutcnt ≠ 1)) ∧
    (check_preconditions_helper s = .failurePreLoopLimit ↔
      ((2 ≤ s.vectorWidth ∧ isPow2 s.vectorWidth = true) ∧
       s.validCountedLoop = true ∧ s.isVectorizedLoop = false ∧
       s.isUnrollOnly = false ∧
       (s.clExitCtrlIsCl = true ∨ s.allowCfg = true) ∧
       s.backControlOutcnt = 1 ∧
       s.isMainLoop = true ∧
       (s.preEndExists = false ∨ s.preEndLimitIsOpaque1 = false))) := by
  unfold check_preconditions check_preconditions_helper
  split_ifs with h1 h2 h3 h4 h5 h6 h7
  · refine ⟨?_, ?_, ?_, ?_, ?_, ?_, ?_, ?_⟩ <;> simp_all <;>
      (intros
       rcases h1 with h | h
       · omega
       · simp_all)
  all_goals refine ⟨?_, ?_, ?_, ?_, ?_, ?_, ?_, ?_⟩ <;> simp_all <;>
    first
      | exact Or.elim (Bool.eq_false_or_eq_true s.clExitCtrlIsCl)
          Or.inl (fun hb => Or.inr (h5 hb))
      | (intro _ hpe
         rcases h7.2 with h | h
         · simp_all
         · exact h)

/-- C9: `VPointer::scaled_iv` returns false immediately, leaving the state
unchanged, whenever a non-zero scale has already been recorded; consequently a
successful `scaled_iv` match implies that no scale had been recorded before
(so at most one scaled induction-variable term is matched per construction,
and the `LShiftL` branch can only run while no iv term has been matched). -/
theorem scaled_iv_scale_guard (e : MatchEnv) (st : PState) (n : VNode) :
    (st.scale ≠ 0 → scaled_iv e st n = (false, st)) ∧
    ((scaled_iv e st n).1 = true → st.scale = 0) := by
  have hfst : st.scale ≠ 0 → scaled_iv e st n = (false, st) := by
    intro h
    unfold scaled_iv
    rw [if_pos h]
  refine ⟨hfst, ?_⟩
  intro hok
  by_contra h
  rw [hfst h] at hok
  simp at hok

/-- Witness for `scaled_iv_scale_guard`: with an already-recorded scale of 1,
`scaled_iv` rejects even the induction variable itself and leaves the state
alone. -/
theorem scaled_iv_scale_guard_witness :
    ((1:ℤ) ≠ 0) ∧ scaled_iv trivEnv oneScaleState .iv = (false, oneScaleState) :=
  ⟨by decide, (scaled_iv_scale_guard trivEnv oneScaleState .iv).1 (by decide)⟩

/-- The `pushIf` bookkeeping touches only the analyze-only stack fields. -/
theorem pushIf_scale (e : MatchEnv) (st : PState) (n : VNode) :
    (pushIf e st n).scale = st.scale := by
  unfold pushIf
  split <;> rfl

/-- C7: `VPointer::scaled_iv` accepts exactly these input shapes (when no
scale has been recorded yet, which any successful call requires): the
induction variable itself, `iv*const` and `const*iv` (`MulI` with one constant
input), `iv<<const` (`LShiftI` with constant shift), `ConvI2L(x)` or
`CastII(x)` recursing into `x`, and `(scaled_iv_plus_offset expression) << const`
(`LShiftL` with constant shift).  The last form sets the resulting scale and
offset to the sub-expression's scale and offset each multiplied by `2^const`,
and, if the sub-expression collected an invariant, aggregates that invariant
wrapped in a left shift by the constant. -/
theorem scaled_iv_accepts_iff (e : MatchEnv) (st : PState) (n : VNode)
    (h : st.scale = 0) :
    ((scaled_iv e st n).1 = true ↔
      (n = .iv ∨
       (∃ c, n = .mulI .iv c ∧ c.isCon = true) ∨
       (∃ c, n = .mulI c .iv ∧ c.isCon = true) ∨
       (∃ c, n = .lshiftI .iv c ∧ c.isCon = true) ∨
       (∃ x, (n = .convI2L x ∨ n = .castII x) ∧
         (scaled_iv_plus_offset e (pushIf e st n) x).1 = true) ∨
       (∃ x c, n = .lshiftL x c ∧ c.isCon = true ∧
         (scaled_iv_plus_offset e
           { scale := 0, offset := 0, invar := none,
             nstack := (pushIf e st n).nstack,
             stackIdx := (pushIf e st n).stackIdx } x).1 = true))) ∧
    (∀ x c, n = .lshiftL x c → c.isCon = true →
      ∀ tmpR : PState,
        scaled_iv_plus_offset e
          { scale := 0, offset := 0, invar := none,
            nstack := (pushIf e st n).nstack,
            stackIdx := (pushIf e st n).stackIdx } x = (true, tmpR) →
        scaled_iv e st n = (true,
          match tmpR.invar with
          | some inv =>
            maybe_add_to_invar
              { (pushIf e st n) with
                scale := cppShl tmpR.scale c.getInt,
                offset := (pushIf e st n).offset + cppShl tmpR.offset c.getInt,
                nstack := tmpR.nstack }
              (LShiftNode_make inv c inv.bt) false
          | none =>
            { (pushIf e st n) with
              scale := cppShl tmpR.scale c.getInt,
              offset := (pushIf e st n).offset + cppShl tmpR.offset c.getInt,
              nstack := tmpR.nstack })) := by
  have h0 : ¬ (st.scale ≠ 0) := by simp [h]
  constructor
  · unfold scaled_iv
    rw [if_neg h0]
    by_cases hiv : n = .iv
    · subst hiv
      simp
    · rw [if_neg hiv]
      cases n with
      | iv => exact absurd rfl hiv
      | mulI a b =>
        dsimp only
        constructor
        · intro hok
          split_ifs at hok with hg1 hg2
          · exact Or.inr (Or.inl ⟨b, by rw [hg1.1], hg1.2⟩)
          · exact Or.inr (Or.inr (Or.inl ⟨a, by rw [hg2.1], hg2.2⟩))
        · rintro (hsh | ⟨c, hsh, hc⟩ | ⟨c, hsh, hc⟩ | ⟨c, hsh, hc⟩ | ⟨x, hsh | hsh, _⟩ |
                  ⟨x, c, hsh, _, _⟩) <;> try (exfalso; simp at hsh; done)
          · injection hsh with h1 h2
            rw [← h2] at hc
            rw [h1]
            rw [if_pos ⟨rfl, hc⟩]
          · injection hsh with h1 h2
            rw [← h1] at hc
            rw [h2]
            have hnot1 : ¬ (a = VNode.iv ∧ (VNode.iv).isCon = true) := by
              rintro ⟨-, hcc⟩
              simp [VNode.isCon] at hcc
            rw [if_neg hnot1, if_pos ⟨rfl, hc⟩]
      | lshiftI a b =>
        dsimp only
        constructor
        · intro hok
          split_ifs at hok with hg1
          exact Or.inr (Or.inr (Or.inr (Or.inl ⟨b, by rw [hg1.1], hg1.2⟩)))
        · rintro (hsh | ⟨c, hsh, hc⟩ | ⟨c, hsh, hc⟩ | ⟨c, hsh, hc⟩ | ⟨x, hsh | hsh, _⟩ |
                  ⟨x, c, hsh, _, _⟩) <;> try (exfalso; simp at hsh; done)
          injection hsh with h1 h2
          rw [← h2] at hc
          rw [h1]
          rw [if_pos ⟨rfl, hc⟩]
      | convI2L a =>
        dsimp only
        constructor
        · intro hok
          exact Or.inr (Or.inr (Or.inr (Or.inr (Or.inl ⟨a, Or.inl rfl, hok⟩))))
        · rintro (hsh | ⟨c, hsh, hc⟩ | ⟨c, hsh, hc⟩ | ⟨c, hsh, hc⟩ | ⟨x, hsh | hsh, hx⟩ |
                  ⟨x, c, hsh, _, _⟩) <;> try (exfalso; simp at hsh; done)
          injection hsh with h1
          rw [← h1] at hx
          exact hx
      | castII a =>
        dsimp only
        constructor
        · intro hok
          exact Or.inr (Or.inr (Or.inr (Or.inr (Or.inl ⟨a, Or.inr rfl, hok⟩))))
        · rintro (hsh | ⟨c, hsh, hc⟩ | ⟨c, hsh, hc⟩ | ⟨c, hsh, hc⟩ | ⟨x, hsh | hsh, hx⟩ |
                  ⟨x, c, hsh, _, _⟩) <;> try (exfalso; simp at hsh; done)
          injection hsh with h1
          rw [← h1] at hx
          exact hx
      | lshiftL a b =>
        dsimp only
        have hsc : (pushIf e st (VNode.lshiftL a b)).scale = 0 := by
          rw [pushIf_scale]; exact h
        constructor
        · intro hok
          by_cases hg1 : b.isCon = true
          case neg =>
            rw [if_neg hg1] at hok
            simp at hok
          rw [if_pos hg1, if_pos hsc] at hok
          by_cases hg3 : (scaled_iv_plus_offset e
              { scale := 0, offset := 0, invar := none,
                nstack := (pushIf e st (VNode.lshiftL a b)).nstack,
                stackIdx := (pushIf e st (VNode.lshiftL a b)).stackIdx } a).1 = true
          · exact Or.inr (Or.inr (Or.inr (Or.inr (Or.inr ⟨a, b, rfl, hg1, hg3⟩))))
          · rw [if_neg hg3] at hok
            simp at hok
        · rintro (hsh | ⟨c, hsh, hc⟩ | ⟨c, hsh, hc⟩ | ⟨c, hsh, hc⟩ | ⟨x, hsh | hsh, hx⟩ |
                  ⟨x, c, hsh, hc, hx⟩) <;> try (exfalso; simp at hsh; done)
          injection hsh with h1 h2
          rw [← h2] at hc
          rw [← h1] at hx
          rw [if_pos hc, if_pos hsc, if_pos hx]
      | conI v =>
        simp
      | conL v f =>
        simp
      | addI a b => simp
      | addL a b => simp
      | subI a b => simp
      | subL a b => simp
      | other id t => simp
  · rintro x c rfl hcon tmpR hres
    unfold scaled_iv
    rw [if_neg h0, if_neg (by simp : ¬ (VNode.lshiftL x c = VNode.iv))]
    have hsc : (pushIf e st (VNode.lshiftL x c)).scale = 0 := by
      rw [pushIf_scale]; exact h
    dsimp only
    rw [if_pos hcon, if_pos hsc, hres]
    rfl

/-- Witness for `scaled_iv_accepts_iff`: from a fresh state, `iv * 4` is
accepted via the `MulI` shape. -/
theorem scaled_iv_accepts_iff_witness :
    zeroScaleState.scale = 0 ∧
    (scaled_iv memEnv zeroScaleState (VNode.mulI .iv (.conI 4))).1 = true :=
  ⟨rfl, ((scaled_iv_accepts_iff memEnv zeroScaleState (VNode.mulI .iv (.conI 4)) rfl).1).mpr
          (Or.inr (Or.inl ⟨.conI 4, rfl, rfl⟩))⟩

theorem inCnt_append (es es' : List (GNode × GNode)) (g : GNode) :
    inCnt (es ++ es') g = inCnt es g + inCnt es' g :=
  List.countP_append _ _ _

theorem inCnt_singleton (ed : GNode × GNode) (g : GNode) :
    inCnt [ed] g = if ed.2 = g then 1 else 0 := by
  unfold inCnt
  rw [List.countP_cons]
  by_cases h : ed.2 = g <;> simp [h]

theorem mem_pairList (notEq : ℕ → ℕ → Bool) (s1 : MNode) (later : List MNode)
    (ed : GNode × GNode) :
    ed ∈ pairList notEq s1 later ↔
      ∃ s2, s2 ∈ later ∧ edgeCondB notEq s1 s2 = true ∧
        ed = (GNode.mem s1.id, GNode.mem s2.id) := by
  unfold pairList
  simp only [List.mem_map, List.mem_filter]
  constructor
  · rintro ⟨s2, ⟨hmem, hcond⟩, rfl⟩
    exact ⟨s2, hmem, hcond, rfl⟩
  · rintro ⟨s2, hmem, hcond, rfl⟩
    exact ⟨s2, ⟨hmem, hcond⟩, rfl⟩

theorem pairList_isEmpty (notEq : ℕ → ℕ → Bool) (s1 : MNode) (later : List MNode) :
    (pairList notEq s1 later).isEmpty = true ↔
      ∀ s2 ∈ later, ¬ (edgeCondB notEq s1 s2 = true) := by
  unfold pairList
  rw [List.isEmpty_iff, List.map_eq_nil_iff, List.filter_eq_nil_iff]

theorem countP_unique_id (p : MNode → Bool) (rest : List MNode) (s2 : MNode)
    (hnd : (rest.map MNode.id).Nodup) (hs2 : s2 ∈ rest)
    (hp : ∀ s', p s' = true → s'.id = s2.id) :
    rest.countP p = if p s2 = true then 1 else 0 := by
  induction rest with
  | nil => cases hs2
  | cons r rs ih =>
    rw [List.map_cons, List.nodup_cons] at hnd
    obtain ⟨hnotin, hnd'⟩ := hnd
    rw [List.countP_cons]
    rcases List.mem_cons.mp hs2 with rfl | hmem
    · have hz : rs.countP p = 0 := by
        rw [List.countP_eq_zero]
        intro a ha hpa
        exact hnotin ((hp a hpa) ▸ List.mem_map_of_mem MNode.id ha)
      rw [hz]
      split_ifs with hc <;> simp [hc]
    · have hprf : p r = false := by
        rcases Bool.eq_false_or_eq_true (p r) with hpr | hpr
        · exact absurd ((hp r hpr) ▸ List.mem_map_of_mem MNode.id hmem) hnotin
        · exact hpr
      rw [hprf, ih hnd' hmem]
      simp

theorem beq_gnode_mem (a b : ℕ) : (GNode.mem a == GNode.mem b) = (a == b) := by
  by_cases h : a = b <;> simp [h]

theorem inCnt_pairList_eq (notEq : ℕ → ℕ → Bool) (s1 : MNode) (rest : List MNode)
    (x : ℕ) :
    inCnt (pairList notEq s1 rest) (GNode.mem x) =
      rest.countP (fun s2 => edgeCondB notEq s1 s2 && (s2.id == x)) := by
  unfold inCnt pairList
  rw [List.countP_map, List.countP_filter]
  congr 1
  funext s2
  simp only [Function.comp_apply, beq_gnode_mem, Bool.and_comm]

theorem inCnt_pairList_not_mem (notEq : ℕ → ℕ → Bool) (s1 : MNode) (rest : List MNode)
    (x : ℕ) (hx : ∀ s' ∈ rest, s'.id ≠ x) :
    inCnt (pairList notEq s1 rest) (GNode.mem x) = 0 := by
  rw [inCnt_pairList_eq, List.countP_eq_zero]
  intro a ha hpa
  rw [Bool.and_eq_true, beq_iff_eq] at hpa
  exact hx a ha hpa.2

theorem inCnt_pairList (notEq : ℕ → ℕ → Bool) (s1 : MNode) (rest : List MNode)
    (s2 : MNode) (hnd : (rest.map MNode.id).Nodup) (hs2 : s2 ∈ rest) :
    inCnt (pairList notEq s1 rest) (GNode.mem s2.id) =
      if edgeCondB notEq s1 s2 = true then 1 else 0 := by
  rw [inCnt_pairList_eq]
  rw [countP_unique_id _ rest s2 hnd hs2 (fun s' hp => by
    rw [Bool.and_eq_true, beq_iff_eq] at hp
    exact hp.2)]
  simp

/-- Membership characterization of `processSlice`: the produced edges are the
incoming accumulator plus, for one slice iterated in predecessor-first order,
(1) the pairwise dependence edges, (2) head links for nodes with no incoming
dependence, (3) sink links for nodes with no outgoing dependence. -/
theorem mem_processSlice (notEq : ℕ → ℕ → Bool) (i headId : ℕ) (L : List MNode) :
    ∀ (es : List (GNode × GNode)),
    (L.map MNode.id).Nodup →
    headId ∉ L.map MNode.id →
    ∀ ed, (ed ∈ processSlice notEq i headId L es ↔
      (ed ∈ es ∨
       (∃ (j k : ℕ) (s1 s2 : MNode), L[j]? = some s1 ∧ L[k]? = some s2 ∧ j < k ∧
          edgeCondB notEq s1 s2 = true ∧ ed = (GNode.mem s1.id, GNode.mem s2.id)) ∨
       (∃ (k : ℕ) (s2 : MNode), L[k]? = some s2 ∧ inCnt es (GNode.mem s2.id) = 0 ∧
          (¬ ∃ (j : ℕ) (s1 : MNode), L[j]? = some s1 ∧ j < k ∧ edgeCondB notEq s1 s2 = true) ∧
          ed = (GNode.mem headId, GNode.mem s2.id)) ∨
       (∃ (j : ℕ) (s1 : MNode), L[j]? = some s1 ∧
          (¬ ∃ (k : ℕ) (s2 : MNode), L[k]? = some s2 ∧ j < k ∧ edgeCondB notEq s1 s2 = true) ∧
          ed = (GNode.mem s1.id, GNode.sliceSink i)))) := by
  induction L with
  | nil =>
    intro es hnd hhead ed
    unfold processSlice
    simp
  | cons s1 rest ih =>
    intro es hnd hhead ed
    rw [List.map_cons, List.nodup_cons] at hnd
    obtain ⟨hs1ni, hnd'⟩ := hnd
    rw [List.map_cons, List.mem_cons] at hhead
    push_neg at hhead
    obtain ⟨hh1, hh2⟩ := hhead
    have hs1id : ∀ s2 ∈ rest, s2.id ≠ s1.id := by
      intro s2 hs2 hssame
      exact hs1ni (hssame ▸ List.mem_map_of_mem MNode.id hs2)
    -- one step of processSlice
    simp only [processSlice]
    rw [ih _ hnd' hh2 ed]
    -- names for the step pieces
    have hmem_es3 : ∀ (x : GNode × GNode),
        (x ∈ (if (pairList notEq s1 rest).isEmpty = true then
                (if inCnt es (GNode.mem s1.id) = 0
                 then es ++ [(GNode.mem headId, GNode.mem s1.id)] else es) ++
                  pairList notEq s1 rest ++
                  [(GNode.mem s1.id, GNode.sliceSink i)]
              else
                (if inCnt es (GNode.mem s1.id) = 0
                 then es ++ [(GNode.mem headId, GNode.mem s1.id)] else es) ++
                  pairList notEq s1 rest) ↔
         (x ∈ es ∨
          (inCnt es (GNode.mem s1.id) = 0 ∧ x = (GNode.mem headId, GNode.mem s1.id)) ∨
          x ∈ pairList notEq s1 rest ∨
          ((pairList notEq s1 rest).isEmpty = true ∧
            x = (GNode.mem s1.id, GNode.sliceSink i)))) := by
      intro x
      split_ifs with hE hA hA <;> simp [List.mem_append, hE, hA]
    have hinCnt3 : ∀ s2 ∈ rest,
        (inCnt (if (pairList notEq s1 rest).isEmpty = true then
                (if inCnt es (GNode.mem s1.id) = 0
                 then es ++ [(GNode.mem headId, GNode.mem s1.id)] else es) ++
                  pairList notEq s1 rest ++
                  [(GNode.mem s1.id, GNode.sliceSink i)]
              else
                (if inCnt es (GNode.mem s1.id) = 0
                 then es ++ [(GNode.mem headId, GNode.mem s1.id)] else es) ++
                  pairList notEq s1 rest) (GNode.mem s2.id) = 0 ↔
         (inCnt es (GNode.mem s2.id) = 0 ∧ ¬ (edgeCondB notEq s1 s2 = true))) := by
      intro s2 hs2
      have hpl := inCnt_pairList notEq s1 rest s2 hnd' hs2
      have e1 : inCnt [(GNode.mem headId, GNode.mem s1.id)] (GNode.mem s2.id) = 0 := by
        rw [inCnt_singleton]
        have hne : GNode.mem s1.id ≠ GNode.mem s2.id := by
          simp only [ne_eq, GNode.mem.injEq]
          exact fun hsame => (hs1id s2 hs2) hsame.symm
        simp [hne]
      have e2 : inCnt [(GNode.mem s1.id, GNode.sliceSink i)] (GNode.mem s2.id) = 0 := by
        rw [inCnt_singleton]
        simp
      split_ifs with hE hA hA <;>
        simp only [inCnt_append, e1, e2, hpl] <;>
        rcases Bool.eq_false_or_eq_true (edgeCondB notEq s1 s2) with hc | hc <;>
        simp only [hc, Bool.false_eq_true, if_false, if_true, eq_self_iff_true,
                   not_true_eq_false, not_false_eq_true, and_true, and_false,
                   iff_false] <;>
        omega
    rw [hmem_es3 ed]
    constructor
    · rintro ((hed | ⟨hA, rfl⟩ | hpe | ⟨hE, rfl⟩) | hP | hH | hS)
      · exact Or.inl hed
      · -- head link for s1 itself (position 0)
        refine Or.inr (Or.inr (Or.inl ⟨0, s1, List.getElem?_cons_zero, hA, ?_, rfl⟩))
        rintro ⟨j, s1', hj, hjlt, -⟩
        omega
      · -- pairwise edge out of s1
        rw [mem_pairList] at hpe
        obtain ⟨s2, hs2, hcond, rfl⟩ := hpe
        obtain ⟨k, hk⟩ := List.mem_iff_getElem?.mp hs2
        exact Or.inr (Or.inl ⟨0, k+1, s1, s2, List.getElem?_cons_zero, by rw [List.getElem?_cons_succ]; exact hk,
          by omega, hcond, rfl⟩)
      · -- sink link for s1 itself (position 0)
        refine Or.inr (Or.inr (Or.inr ⟨0, s1, List.getElem?_cons_zero, ?_, rfl⟩))
        rintro ⟨k, s2, hk, hklt, hcond⟩
        match k, hk with
        | k+1, hk =>
          rw [List.getElem?_cons_succ] at hk
          have hs2mem : s2 ∈ rest := List.mem_iff_getElem?.mpr ⟨_, hk⟩
          exact (pairList_isEmpty notEq s1 rest).mp hE s2 hs2mem hcond
      · -- pairwise edge within rest: shift indices by one
        obtain ⟨j, k, s1', s2, hj, hk, hjk, hcond, rfl⟩ := hP
        exact Or.inr (Or.inl ⟨j+1, k+1, s1', s2,
          by rw [List.getElem?_cons_succ]; exact hj,
          by rw [List.getElem?_cons_succ]; exact hk, by omega, hcond, rfl⟩)
      · -- head link within rest
        obtain ⟨k, s2, hk, hz, hnoj, rfl⟩ := hH
        have hs2mem : s2 ∈ rest := List.mem_iff_getElem?.mpr ⟨_, hk⟩
        rw [hinCnt3 s2 hs2mem] at hz
        refine Or.inr (Or.inr (Or.inl ⟨k+1, s2,
          by rw [List.getElem?_cons_succ]; exact hk, hz.1, ?_, rfl⟩))
        rintro ⟨j, s1', hj, hjlt, hcond⟩
        match j, hj with
        | 0, hj =>
          rw [List.getElem?_cons_zero] at hj
          injection hj with hj
          exact hz.2 (hj ▸ hcond)
        | j+1, hj =>
          rw [List.getElem?_cons_succ] at hj
          exact hnoj ⟨j, s1', hj, by omega, hcond⟩
      · -- sink link within rest
        obtain ⟨j, s1', hj, hnok, rfl⟩ := hS
        refine Or.inr (Or.inr (Or.inr ⟨j+1, s1',
          by rw [List.getElem?_cons_succ]; exact hj, ?_, rfl⟩))
        rintro ⟨k, s2, hk, hklt, hcond⟩
        match k, hk with
        | k+1, hk =>
          rw [List.getElem?_cons_succ] at hk
          exact hnok ⟨k, s2, hk, by omega, hcond⟩
    · rintro (hed | hP | hH | hS)
      · exact Or.inl (Or.inl hed)
      · obtain ⟨j, k, s1', s2, hj, hk, hjk, hcond, rfl⟩ := hP
        match j, hj with
        | 0, hj =>
          rw [List.getElem?_cons_zero] at hj
          injection hj with hj
          subst hj
          match k, hk with
          | k+1, hk =>
            rw [List.getElem?_cons_succ] at hk
            have hs2mem : s2 ∈ rest := List.mem_iff_getElem?.mpr ⟨_, hk⟩
            refine Or.inl (Or.inr (Or.inr (Or.inl ?_)))
            rw [mem_pairList]
            exact ⟨s2, hs2mem, hcond, rfl⟩
        | j+1, hj =>
          rw [List.getElem?_cons_succ] at hj
          match k, hk with
          | k+1, hk =>
            rw [List.getElem?_cons_succ] at hk
            exact Or.inr (Or.inl ⟨j, k, s1', s2, hj, hk, by omega, hcond, rfl⟩)
      · obtain ⟨k, s2, hk, hz, hnoj, rfl⟩ := hH
        match k, hk with
        | 0, hk =>
          rw [List.getElem?_cons_zero] at hk
          injection hk with hk
          subst hk
          exact Or.inl (Or.inr (Or.inl ⟨hz, rfl⟩))
        | k+1, hk =>
          rw [List.getElem?_cons_succ] at hk
          have hs2mem : s2 ∈ rest := List.mem_iff_getElem?.mpr ⟨_, hk⟩
          have hnc : ¬ (edgeCondB notEq s1 s2 = true) := by
            intro hc
            exact hnoj ⟨0, s1, List.getElem?_cons_zero, by omega, hc⟩
          refine Or.inr (Or.inr (Or.inl ⟨k, s2, hk, ?_, ?_, rfl⟩))
          · rw [hinCnt3 s2 hs2mem]
            exact ⟨hz, hnc⟩
          · rintro ⟨j, s1', hj, hjlt, hcond⟩
            exact hnoj ⟨j+1, s1',
              by rw [List.getElem?_cons_succ]; exact hj, by omega, hcond⟩
      · obtain ⟨j, s1', hj, hnok, rfl⟩ := hS
        match j, hj with
        | 0, hj =>
          rw [List.getElem?_cons_zero] at hj
          injection hj with hj
          subst hj
          have hE : (pairList notEq s1 rest).isEmpty = true := by
            rw [pairList_isEmpty]
            intro s2 hs2 hcond
            obtain ⟨k, hk⟩ := List.mem_iff_getElem?.mp hs2
            exact hnok ⟨k+1, s2, by rw [List.getElem?_cons_succ]; exact hk, by omega, hcond⟩
          exact Or.inl (Or.inr (Or.inr (Or.inr ⟨hE, rfl⟩)))
        | j+1, hj =>
          rw [List.getElem?_cons_succ] at hj
          refine Or.inr (Or.inr (Or.inr ⟨j, s1', hj, ?_, rfl⟩))
          rintro ⟨k, s2, hk, hklt, hcond⟩
          exact hnok ⟨k+1, s2, by rw [List.getElem?_cons_succ]; exact hk, by omega, hcond⟩

theorem inCnt_eq_zero_iff (es : List (GNode × GNode)) (g : GNode) :
    inCnt es g = 0 ↔ ∀ ed ∈ es, ed.2 ≠ g := by
  unfold inCnt
  rw [List.countP_eq_zero]
  constructor
  · intro h ed hed
    have := h ed hed
    simpa using this
  · intro h ed hed
    simpa using h ed hed

/-- Membership characterization of `buildAux` over a list of slices, under
global distinctness of the member node ids and of the head ids from the
member ids. -/
theorem mem_buildAux (notEq : ℕ → ℕ → Bool) (slices : List DSlice) :
    ∀ (t0 : ℕ) (es : List (GNode × GNode)),
    (slices.flatMap (fun sl => sl.nodes.map MNode.id)).Nodup →
    (∀ sl ∈ slices, ∀ sl' ∈ slices, sl.headId ∉ sl'.nodes.map MNode.id) →
    (∀ sl ∈ slices, ∀ s ∈ sl.nodes, inCnt es (GNode.mem s.id) = 0) →
    ∀ ed, (ed ∈ buildAux notEq t0 slices es ↔
      ed ∈ es ∨
      (∃ (t : ℕ) (sl : DSlice), slices[t]? = some sl ∧
        (ed = (GNode.root, GNode.mem sl.headId) ∨
         ed = (GNode.sliceSink (t0 + t), GNode.sinkG) ∨
         (∃ (j k : ℕ) (s1 s2 : MNode), (sl.nodes.reverse)[j]? = some s1 ∧
            (sl.nodes.reverse)[k]? = some s2 ∧ j < k ∧
            edgeCondB notEq s1 s2 = true ∧ ed = (GNode.mem s1.id, GNode.mem s2.id)) ∨
         (∃ (k : ℕ) (s2 : MNode), (sl.nodes.reverse)[k]? = some s2 ∧
            (¬ ∃ (j : ℕ) (s1 : MNode), (sl.nodes.reverse)[j]? = some s1 ∧ j < k ∧
               edgeCondB notEq s1 s2 = true) ∧
            ed = (GNode.mem sl.headId, GNode.mem s2.id)) ∨
         (∃ (j : ℕ) (s1 : MNode), (sl.nodes.reverse)[j]? = some s1 ∧
            (¬ ∃ (k : ℕ) (s2 : MNode), (sl.nodes.reverse)[k]? = some s2 ∧ j < k ∧
               edgeCondB notEq s1 s2 = true) ∧
            ed = (GNode.mem s1.id, GNode.sliceSink (t0 + t)))))) := by
  induction slices with
  | nil =>
    intro t0 es hnd hheads hes ed
    unfold buildAux
    simp
  | cons sl rest ih =>
    intro t0 es hnd hheads hes ed
    rw [List.flatMap_cons] at hnd
    rw [List.nodup_append] at hnd
    obtain ⟨ndsl, ndrest, disj⟩ := hnd
    -- nodup of the reversed member-id list of sl
    have ndslrev : ((sl.nodes.reverse).map MNode.id).Nodup := by
      rw [List.map_reverse, List.nodup_reverse]
      exact ndsl
    have hheadsl : sl.headId ∉ (sl.nodes.reverse).map MNode.id := by
      intro hmem
      rw [List.map_reverse, List.mem_reverse] at hmem
      exact hheads sl (List.mem_cons_self sl rest) sl (List.mem_cons_self sl rest) hmem
    -- the accumulator after wiring root and sink
    have hes2 : ∀ sl' ∈ sl :: rest, ∀ s ∈ sl'.nodes,
        inCnt ((es ++ [(GNode.root, GNode.mem sl.headId)]) ++
               [(GNode.sliceSink t0, GNode.sinkG)]) (GNode.mem s.id) = 0 := by
      intro sl' hsl' s hs
      rw [inCnt_append, inCnt_append, inCnt_singleton, inCnt_singleton]
      have h1 : inCnt es (GNode.mem s.id) = 0 := hes sl' hsl' s hs
      have h2 : GNode.mem sl.headId ≠ GNode.mem s.id := by
        simp only [ne_eq, GNode.mem.injEq]
        intro hsame
        exact hheads sl (List.mem_cons_self sl rest) sl' hsl'
          (hsame ▸ List.mem_map_of_mem MNode.id hs)
      simp [h1, h2]
    -- membership in the slice-processed accumulator
    have hps := mem_processSlice notEq t0 sl.headId (sl.nodes.reverse)
      ((es ++ [(GNode.root, GNode.mem sl.headId)]) ++ [(GNode.sliceSink t0, GNode.sinkG)])
      ndslrev hheadsl
    -- ids appearing as mem-targets of the processed accumulator
    have hes3 : ∀ sl' ∈ rest, ∀ s ∈ sl'.nodes,
        inCnt (processSlice notEq t0 sl.headId (sl.nodes.reverse)
          ((es ++ [(GNode.root, GNode.mem sl.headId)]) ++
           [(GNode.sliceSink t0, GNode.sinkG)])) (GNode.mem s.id) = 0 := by
      intro sl' hsl' s hs
      rw [inCnt_eq_zero_iff]
      intro ed' hed'
      rw [hps ed'] at hed'
      have hsid : s.id ∈ rest.flatMap (fun sl => sl.nodes.map MNode.id) := by
        rw [List.mem_flatMap]
        exact ⟨sl', hsl', List.mem_map_of_mem MNode.id hs⟩
      have hsl_ne : ∀ s' ∈ sl.nodes, s'.id ≠ s.id := by
        intro s' hs' hsame
        exact disj (hsame ▸ List.mem_map_of_mem MNode.id hs') hsid
      have hhead_ne : sl.headId ≠ s.id := by
        intro hsame
        exact hheads sl (List.mem_cons_self sl rest) sl' (List.mem_cons_of_mem sl hsl')
          (hsame ▸ List.mem_map_of_mem MNode.id hs)
      rcases hed' with hed' | hP | hH | hS
      · -- in the pre-slice accumulator
        rw [List.mem_append, List.mem_append] at hed'
        rcases hed' with (hed' | hed') | hed'
        · have := (inCnt_eq_zero_iff es (GNode.mem s.id)).mp (hes sl' (List.mem_cons_of_mem sl hsl') s hs)
          exact this ed' hed'
        · rw [List.mem_singleton] at hed'
          subst hed'
          simp only [ne_eq, GNode.mem.injEq]
          exact hhead_ne
        · rw [List.mem_singleton] at hed'
          subst hed'
          simp
      · obtain ⟨j, k, s1, s2, hj, hk, -, -, rfl⟩ := hP
        have hs2mem : s2 ∈ sl.nodes := by
          have := List.mem_iff_getElem?.mpr ⟨_, hk⟩
          rwa [List.mem_reverse] at this
        simp only [ne_eq, GNode.mem.injEq]
        exact hsl_ne s2 hs2mem
      · obtain ⟨k, s2, hk, -, -, rfl⟩ := hH
        have hs2mem : s2 ∈ sl.nodes := by
          have := List.mem_iff_getElem?.mpr ⟨_, hk⟩
          rwa [List.mem_reverse] at this
        simp only [ne_eq, GNode.mem.injEq]
        exact hsl_ne s2 hs2mem
      · obtain ⟨j, s1, hj, -, rfl⟩ := hS
        simp
    -- apply the induction hypothesis
    have hheads' : ∀ sl' ∈ rest, ∀ sl'' ∈ rest, sl'.headId ∉ sl''.nodes.map MNode.id :=
      fun sl' h1 sl'' h2 =>
        hheads sl' (List.mem_cons_of_mem sl h1) sl'' (List.mem_cons_of_mem sl h2)
    simp only [buildAux]
    rw [ih (t0 + 1) _ ndrest hheads' hes3 ed]
    rw [hps ed]
    -- now a propositional rearrangement
    constructor
    · rintro ((hed | hP | hH | hS) | ⟨t, sl', hsl', hkind⟩)
      · rw [List.mem_append, List.mem_append] at hed
        rcases hed with (hed | hed) | hed
        · exact Or.inl hed
        · rw [List.mem_singleton] at hed
          exact Or.inr ⟨0, sl, List.getElem?_cons_zero, Or.inl hed⟩
        · rw [List.mem_singleton] at hed
          refine Or.inr ⟨0, sl, List.getElem?_cons_zero, Or.inr (Or.inl ?_)⟩
          rw [hed]
          norm_num
      · exact Or.inr ⟨0, sl, List.getElem?_cons_zero, Or.inr (Or.inr (Or.inl hP))⟩
      · obtain ⟨k, s2, hk, -, hnoj, rfl⟩ := hH
        exact Or.inr ⟨0, sl, List.getElem?_cons_zero,
          Or.inr (Or.inr (Or.inr (Or.inl ⟨k, s2, hk, hnoj, rfl⟩)))⟩
      · obtain ⟨j, s1, hj, hnok, rfl⟩ := hS
        refine Or.inr ⟨0, sl, List.getElem?_cons_zero,
          Or.inr (Or.inr (Or.inr (Or.inr ⟨j, s1, hj, hnok, ?_⟩)))⟩
        norm_num
      · refine Or.inr ⟨t + 1, sl', by rw [List.getElem?_cons_succ]; exact hsl', ?_⟩
        have harith : t0 + 1 + t = t0 + (t + 1) := by omega
        rw [harith] at hkind
        exact hkind
    · rintro (hed | ⟨t, sl', hsl', hkind⟩)
      · exact Or.inl (Or.inl (by
          rw [List.mem_append, List.mem_append]
          exact Or.inl (Or.inl hed)))
      · match t, hsl' with
        | 0, hsl' =>
          rw [List.getElem?_cons_zero] at hsl'
          injection hsl' with hsl'
          subst hsl'
          rcases hkind with hk | hk | hk | hk | hk
          · exact Or.inl (Or.inl (by
              rw [List.mem_append, List.mem_append]
              exact Or.inl (Or.inr (List.mem_singleton.mpr hk))))
          · refine Or.inl (Or.inl (by
              rw [List.mem_append, List.mem_append]
              refine Or.inr (List.mem_singleton.mpr ?_)
              rw [hk]
              norm_num))
          · exact Or.inl (Or.inr (Or.inl hk))
          · obtain ⟨k, s2, hks, hnoj, rfl⟩ := hk
            refine Or.inl (Or.inr (Or.inr (Or.inl ⟨k, s2, hks, ?_, hnoj, rfl⟩)))
            have hs2mem : s2 ∈ sl.nodes := by
              have := List.mem_iff_getElem?.mpr ⟨_, hks⟩
              rwa [List.mem_reverse] at this
            exact hes2 sl (List.mem_cons_self sl rest) s2 hs2mem
          · obtain ⟨j, s1, hjs, hnok, hk⟩ := hk
            refine Or.inl (Or.inr (Or.inr (Or.inr ⟨j, s1, hjs, hnok, ?_⟩)))
            rw [hk]
            norm_num
        | t + 1, hsl' =>
          rw [List.getElem?_cons_succ] at hsl'
          refine Or.inr ⟨t, sl', hsl', ?_⟩
          have harith : t0 + (t + 1) = t0 + 1 + t := by omega
          rw [harith] at hkind
          exact hkind

/-- C4: In the dependence graph built by `build` (VLoopDependenceGraph::build),
assuming the memory-node ids across slices are distinct and the slice head ids
do not collide with member ids, an edge is present iff it is one of: the
root-to-head edge of a slice; the slice-sink-to-global-sink edge; a pair edge
s1 → s2 for nodes of one slice taken in predecessor-first order (the reverse
of the stored order), excluding load-load pairs, whenever the VPointer
comparison `notEq` does not prove them not-equal; a head link for a node with
no incoming same-slice dependence; or a sink link for a node with no outgoing
same-slice dependence. -/
theorem build_spec (notEq : ℕ → ℕ → Bool) (slices : List DSlice)
    (hnd : (slices.flatMap (fun sl => sl.nodes.map MNode.id)).Nodup)
    (hheads : ∀ sl ∈ slices, ∀ sl' ∈ slices, sl.headId ∉ sl'.nodes.map MNode.id) :
    ∀ ed, (ed ∈ build notEq slices ↔
      (∃ (t : ℕ) (sl : DSlice), slices[t]? = some sl ∧
        (ed = (GNode.root, GNode.mem sl.headId) ∨
         ed = (GNode.sliceSink t, GNode.sinkG) ∨
         (∃ (j k : ℕ) (s1 s2 : MNode), (sl.nodes.reverse)[j]? = some s1 ∧
            (sl.nodes.reverse)[k]? = some s2 ∧ j < k ∧
            edgeCondB notEq s1 s2 = true ∧ ed = (GNode.mem s1.id, GNode.mem s2.id)) ∨
         (∃ (k : ℕ) (s2 : MNode), (sl.nodes.reverse)[k]? = some s2 ∧
            (¬ ∃ (j : ℕ) (s1 : MNode), (sl.nodes.reverse)[j]? = some s1 ∧ j < k ∧
               edgeCondB notEq s1 s2 = true) ∧
            ed = (GNode.mem sl.headId, GNode.mem s2.id)) ∨
         (∃ (j : ℕ) (s1 : MNode), (sl.nodes.reverse)[j]? = some s1 ∧
            (¬ ∃ (k : ℕ) (s2 : MNode), (sl.nodes.reverse)[k]? = some s2 ∧ j < k ∧
               edgeCondB notEq s1 s2 = true) ∧
            ed = (GNode.mem s1.id, GNode.sliceSink t))))) := by
  intro ed
  have h := mem_buildAux notEq slices 0 []
    hnd hheads (by intro sl hsl s hs; rfl) ed
  rw [build, h]
  simp only [List.not_mem_nil, false_or, Nat.zero_add]

theorem build_spec_witness :
    ((([⟨10, [⟨1, true⟩, ⟨2, false⟩]⟩] : List DSlice).flatMap
        (fun sl => sl.nodes.map MNode.id)).Nodup ∧
     (∀ sl ∈ ([⟨10, [⟨1, true⟩, ⟨2, false⟩]⟩] : List DSlice),
        ∀ sl' ∈ ([⟨10, [⟨1, true⟩, ⟨2, false⟩]⟩] : List DSlice),
        sl.headId ∉ sl'.nodes.map MNode.id)) ∧
    ((GNode.root, GNode.mem 10) ∈
        build (fun _ _ => false) [⟨10, [⟨1, true⟩, ⟨2, false⟩]⟩] ↔
      (∃ (t : ℕ) (sl : DSlice),
        ([⟨10, [⟨1, true⟩, ⟨2, false⟩]⟩] : List DSlice)[t]? = some sl ∧
        ((GNode.root, GNode.mem 10) = (GNode.root, GNode.mem sl.headId) ∨
         (GNode.root, GNode.mem 10) = (GNode.sliceSink t, GNode.sinkG) ∨
         (∃ (j k : ℕ) (s1 s2 : MNode), (sl.nodes.reverse)[j]? = some s1 ∧
            (sl.nodes.reverse)[k]? = some s2 ∧ j < k ∧
            edgeCondB (fun _ _ => false) s1 s2 = true ∧
            (GNode.root, GNode.mem 10) = (GNode.mem s1.id, GNode.mem s2.id)) ∨
         (∃ (k : ℕ) (s2 : MNode), (sl.nodes.reverse)[k]? = some s2 ∧
            (¬ ∃ (j : ℕ) (s1 : MNode), (sl.nodes.reverse)[j]? = some s1 ∧ j < k ∧
               edgeCondB (fun _ _ => false) s1 s2 = true) ∧
            (GNode.root, GNode.mem 10) = (GNode.mem sl.headId, GNode.mem s2.id)) ∨
         (∃ (j : ℕ) (s1 : MNode), (sl.nodes.reverse)[j]? = some s1 ∧
            (¬ ∃ (k : ℕ) (s2 : MNode), (sl.nodes.reverse)[k]? = some s2 ∧ j < k ∧
               edgeCondB (fun _ _ => false) s1 s2 = true) ∧
            (GNode.root, GNode.mem 10) = (GNode.mem s1.id, GNode.sliceSink t))))) :=
  ⟨⟨by decide, by decide⟩,
   build_spec (fun _ _ => false) [⟨10, [⟨1, true⟩, ⟨2, false⟩]⟩]
     (by decide) (by decide) (GNode.root, GNode.mem 10)⟩

theorem sweepStep_snd_true (B : List BNode) (st : (ℕ → ℕ) × Bool) (n : BNode)
    (h : st.2 = true) : (sweepStep B st n).2 = true := by
  unfold sweepStep
  split_ifs <;> simp [h]

theorem foldl_sweepStep_snd_true (B : List BNode) :
    ∀ (l : List BNode) (st : (ℕ → ℕ) × Bool), st.2 = true →
      (l.foldl (sweepStep B) st).2 = true := by
  intro l
  induction l with
  | nil => intro st h; simpa using h
  | cons n l ih =>
    intro st h
    rw [List.foldl_cons]
    exact ih _ (sweepStep_snd_true B st n h)

theorem foldl_sweepStep_false (B : List BNode) :
    ∀ (l : List BNode) (dep dep' : ℕ → ℕ),
      l.foldl (sweepStep B) (dep, false) = (dep', false) →
      dep' = dep ∧ ∀ n ∈ l, n.isPhi = false → dIn B dep n + 1 = dep n.id := by
  intro l
  induction l with
  | nil =>
    intro dep dep' h
    rw [List.foldl_nil] at h
    injection h with h1 h2
    exact ⟨h1.symm, by simp⟩
  | cons n l ih =>
    intro dep dep' h
    rw [List.foldl_cons] at h
    by_cases hphi : n.isPhi = true
    · rw [show sweepStep B (dep, false) n = (dep, false) by unfold sweepStep; rw [if_pos hphi]] at h
      obtain ⟨h1, h2⟩ := ih dep dep' h
      refine ⟨h1, ?_⟩
      intro m hm hmphi
      rcases List.mem_cons.mp hm with rfl | hm'
      · rw [hmphi] at hphi; exact absurd hphi (by simp)
      · exact h2 m hm' hmphi
    · by_cases hne : dIn B dep n + 1 ≠ dep n.id
      · rw [show sweepStep B (dep, false) n =
            (fun m => if m = n.id then dIn B dep n + 1 else dep m, true) by
          unfold sweepStep; rw [if_neg hphi, if_pos hne]] at h
        have := foldl_sweepStep_snd_true B l
          (fun m => if m = n.id then dIn B dep n + 1 else dep m, true) rfl
        rw [h] at this
        exact absurd this (by simp)
      · rw [show sweepStep B (dep, false) n = (dep, false) by
          unfold sweepStep; rw [if_neg hphi, if_neg hne]] at h
        obtain ⟨h1, h2⟩ := ih dep dep' h
        refine ⟨h1, ?_⟩
        intro m hm hmphi
        rcases List.mem_cons.mp hm with rfl | hm'
        · exact not_ne_iff.mp hne
        · exact h2 m hm' hmphi

theorem foldl_sweepStep_preserves_id (B : List BNode) (i : ℕ)
    (hi : ∀ m ∈ B, m.id = i → m.isPhi = true) :
    ∀ (l : List BNode) (st : (ℕ → ℕ) × Bool), (∀ m ∈ l, m ∈ B) →
      (l.foldl (sweepStep B) st).1 i = st.1 i := by
  intro l
  induction l with
  | nil => intro st _; rfl
  | cons n l ih =>
    intro st hsub
    rw [List.foldl_cons]
    have hstep : (sweepStep B st n).1 i = st.1 i := by
      unfold sweepStep
      split_ifs with h1 h2
      · rfl
      · have hne : i ≠ n.id := by
          intro hsame
          exact absurd (hi n (hsub n (List.mem_cons_self n l)) hsame.symm) h1
        simp [hne]
      · rfl
    rw [ih _ (fun m hm => hsub m (List.mem_cons_of_mem n hm)), hstep]

theorem computeMaxDepthAux_preserves_id (B : List BNode) (i : ℕ)
    (hi : ∀ m ∈ B, m.id = i → m.isPhi = true) :
    ∀ (fuel : ℕ) (dep : ℕ → ℕ), (computeMaxDepthAux B fuel dep).1 i = dep i := by
  intro fuel
  induction fuel with
  | zero => intro dep; rfl
  | succ fuel ih =>
    intro dep
    have hsw : (sweep B dep).1 i = dep i :=
      foldl_sweepStep_preserves_id B i hi B (dep, false) (fun m hm => hm)
    simp only [computeMaxDepthAux]
    by_cases hr : (sweep B dep).2 = true
    · rw [if_pos hr, ih, hsw]
    · rw [if_neg hr, hsw]

theorem computeMaxDepthAux_fixpoint (B : List BNode) :
    ∀ (fuel : ℕ) (dep dep' : ℕ → ℕ),
      computeMaxDepthAux B fuel dep = (dep', true) →
      ∀ n ∈ B, n.isPhi = false → dIn B dep' n + 1 = dep' n.id := by
  intro fuel
  induction fuel with
  | zero =>
    intro dep dep' h
    injection h with h1 h2
    exact absurd h2 (by simp)
  | succ fuel ih =>
    intro dep dep' h
    simp only [computeMaxDepthAux] at h
    by_cases hr : (sweep B dep).2 = true
    · rw [if_pos hr] at h
      exact ih _ _ h
    · rw [if_neg hr] at h
      injection h with h1 h2
      simp only [Bool.not_eq_true] at hr
      have hpair : sweep B dep = (dep', false) := by
        rw [Prod.ext_iff]
        exact ⟨h1, hr⟩
      unfold sweep at hpair
      obtain ⟨heq, hfix⟩ := foldl_sweepStep_false B B dep dep' hpair
      intro n hn hnphi
      rw [heq]
      exact hfix n hn hnphi

/-- C5: if `compute_max_depth` (VLoopDependenceGraph::compute_max_depth)
converges within its fuel, then for every non-phi node n of the body the
resulting depth satisfies depth(n) = 1 + max of the depths of the in-body
predecessors of n (the maximum `dIn` being 0 when there is none). -/
theorem compute_max_depth_fixpoint (B : List BNode) (fuel : ℕ)
    (hconv : (compute_max_depth B fuel).2 = true) :
    ∀ n ∈ B, n.isPhi = false →
      (compute_max_depth B fuel).1 n.id =
        dIn B (compute_max_depth B fuel).1 n + 1 := by
  intro n hn hnphi
  have hpair : computeMaxDepthAux B fuel (fun _ => 0) =
      ((compute_max_depth B fuel).1, true) := by
    rw [Prod.ext_iff]
    exact ⟨rfl, hconv⟩
  exact (computeMaxDepthAux_fixpoint B fuel (fun _ => 0)
    (compute_max_depth B fuel).1 hpair n hn hnphi).symm

theorem compute_max_depth_fixpoint_witness :
    ((compute_max_depth
        [⟨1, true, []⟩, ⟨2, false, [1]⟩, ⟨3, false, [1, 2]⟩] 5).2 = true ∧
      (⟨2, false, [1]⟩ : BNode) ∈
        ([⟨1, true, []⟩, ⟨2, false, [1]⟩, ⟨3, false, [1, 2]⟩] : List BNode) ∧
      (⟨2, false, [1]⟩ : BNode).isPhi = false) ∧
    (compute_max_depth
        [⟨1, true, []⟩, ⟨2, false, [1]⟩, ⟨3, false, [1, 2]⟩] 5).1 (2 : ℕ) =
      dIn [⟨1, true, []⟩, ⟨2, false, [1]⟩, ⟨3, false, [1, 2]⟩]
        (compute_max_depth
          [⟨1, true, []⟩, ⟨2, false, [1]⟩, ⟨3, false, [1, 2]⟩] 5).1
        ⟨2, false, [1]⟩ + 1 :=
  ⟨⟨by decide, by decide, rfl⟩,
   compute_max_depth_fixpoint
     [⟨1, true, []⟩, ⟨2, false, [1]⟩, ⟨3, false, [1, 2]⟩] 5 (by decide)
     ⟨2, false, [1]⟩ (by decide) rfl⟩

theorem dIn_eq_zero (B : List BNode) (dep : ℕ → ℕ) (n : BNode)
    (h : ∀ q ∈ n.preds, inBody B q = true → dep q = 0) : dIn B dep n = 0 := by
  unfold dIn
  have haux : ∀ l : List ℕ, (∀ q ∈ l, inBody B q = true → dep q = 0) →
      l.foldl (fun acc q => if inBody B q = true then max acc (dep q) else acc) 0 = 0 := by
    intro l
    induction l with
    | nil => intro _; rfl
    | cons q l ih =>
      intro hz
      rw [List.foldl_cons]
      by_cases hq : inBody B q = true
      · rw [if_pos hq, hz q (List.mem_cons_self q l) hq, max_self]
        exact ih (fun q' hq' => hz q' (List.mem_cons_of_mem q hq'))
      · rw [if_neg hq]
        exact ih (fun q' hq' => hz q' (List.mem_cons_of_mem q hq'))
  exact haux n.preds h

/-- C10: `compute_max_depth` never assigns a depth to phi nodes, so (with
distinct body ids) every phi keeps depth 0; and if it converges, every
non-phi node all of whose in-body predecessors are phis — in particular one
with no in-body predecessor — gets depth exactly 1. -/
theorem compute_max_depth_phi_depths (B : List BNode) (fuel : ℕ)
    (hids : (B.map BNode.id).Nodup)
    (hconv : (compute_max_depth B fuel).2 = true) :
    (∀ p ∈ B, p.isPhi = true → (compute_max_depth B fuel).1 p.id = 0) ∧
    (∀ n ∈ B, n.isPhi = false →
      (∀ q ∈ n.preds, ∀ m ∈ B, m.id = q → m.isPhi = true) →
      (compute_max_depth B fuel).1 n.id = 1) := by
  have hinj : ∀ x ∈ B, ∀ y ∈ B, x.id = y.id → x = y :=
    fun x hx y hy hxy => List.inj_on_of_nodup_map hids hx hy hxy
  have hphi0 : ∀ i : ℕ, (∀ m ∈ B, m.id = i → m.isPhi = true) →
      (compute_max_depth B fuel).1 i = 0 := by
    intro i hi
    exact computeMaxDepthAux_preserves_id B i hi fuel (fun _ => 0)
  constructor
  · intro p hp hpPhi
    refine hphi0 p.id ?_
    intro m hm hmid
    rw [hinj m hm p hp hmid]
    exact hpPhi
  · intro n hn hnphi hpreds
    have hpair : computeMaxDepthAux B fuel (fun _ => 0) =
        ((compute_max_depth B fuel).1, true) := by
      rw [Prod.ext_iff]
      exact ⟨rfl, hconv⟩
    have hfix := (computeMaxDepthAux_fixpoint B fuel (fun _ => 0)
      (compute_max_depth B fuel).1 hpair n hn hnphi).symm
    have hzero : ∀ q ∈ n.preds, inBody B q = true →
        (compute_max_depth B fuel).1 q = 0 := by
      intro q hq hqin
      simp only [inBody, List.any_eq_true, beq_iff_eq] at hqin
      obtain ⟨m, hm, hmid⟩ := hqin
      subst hmid
      refine hphi0 m.id ?_
      intro m' hm' hm'id
      rw [hinj m' hm' m hm hm'id]
      exact hpreds m.id hq m hm rfl
    have hdin : dIn B (compute_max_depth B fuel).1 n = 0 :=
      dIn_eq_zero B (compute_max_depth B fuel).1 n hzero
    rw [hfix, hdin]

theorem compute_max_depth_phi_depths_witness :
    ((([⟨1, true, []⟩, ⟨2, false, [1]⟩, ⟨3, false, [1, 2]⟩] : List BNode).map
        BNode.id).Nodup ∧
      (compute_max_depth
        [⟨1, true, []⟩, ⟨2, false, [1]⟩, ⟨3, false, [1, 2]⟩] 5).2 = true) ∧
    ((∀ p ∈ ([⟨1, true, []⟩, ⟨2, false, [1]⟩, ⟨3, false, [1, 2]⟩] : List BNode),
        p.isPhi = true →
        (compute_max_depth
          [⟨1, true, []⟩, ⟨2, false, [1]⟩, ⟨3, false, [1, 2]⟩] 5).1 p.id = 0) ∧
     (∀ n ∈ ([⟨1, true, []⟩, ⟨2, false, [1]⟩, ⟨3, false, [1, 2]⟩] : List BNode),
        n.isPhi = false →
        (∀ q ∈ n.preds,
          ∀ m ∈ ([⟨1, true, []⟩, ⟨2, false, [1]⟩, ⟨3, false, [1, 2]⟩] : List BNode),
          m.id = q → m.isPhi = true) →
        (compute_max_depth
          [⟨1, true, []⟩, ⟨2, false, [1]⟩, ⟨3, false, [1, 2]⟩] 5).1 n.id = 1)) :=
  ⟨⟨by decide, by decide⟩,
   compute_max_depth_phi_depths
     [⟨1, true, []⟩, ⟨2, false, [1]⟩, ⟨3, false, [1, 2]⟩] 5 (by decide) (by decide)⟩

theorem mem_closeStep (B : List BNode) (dep : ℕ → ℕ) (m : ℕ) (v : List ℕ) (p : ℕ) :
    p ∈ closeStep B dep m v ↔ p ∈ v ∨ ∃ q ∈ v, p ∈ pruned B dep m q := by
  unfold closeStep
  simp only [List.mem_append, List.mem_filter, List.mem_dedup, List.mem_flatMap,
    decide_eq_true_eq]
  constructor
  · rintro (h | ⟨⟨q, hq, hp⟩, -⟩)
    · exact Or.inl h
    · exact Or.inr ⟨q, hq, hp⟩
  · rintro (h | ⟨q, hq, hp⟩)
    · exact Or.inl h
    · by_cases hv : p ∈ v
      · exact Or.inl hv
      · exact Or.inr ⟨⟨q, hq, hp⟩, hv⟩

theorem subset_closeStep (B : List BNode) (dep : ℕ → ℕ) (m : ℕ) (v : List ℕ) :
    v ⊆ closeStep B dep m v :=
  fun p hp => (mem_closeStep B dep m v p).mpr (Or.inl hp)

theorem subset_closeN (B : List BNode) (dep : ℕ → ℕ) (m : ℕ) :
    ∀ (f : ℕ) (v : List ℕ), v ⊆ closeN B dep m f v := by
  intro f
  induction f with
  | zero => intro v; exact fun p hp => hp
  | succ f ih =>
    intro v
    exact fun p hp => ih (closeStep B dep m v) (subset_closeStep B dep m v hp)

theorem closeN_of_fix (B : List BNode) (dep : ℕ → ℕ) (m : ℕ) :
    ∀ (f : ℕ) (v : List ℕ), closeStep B dep m v = v → closeN B dep m f v = v := by
  intro f
  induction f with
  | zero => intro v _; rfl
  | succ f ih =>
    intro v hfixv
    show closeN B dep m f (closeStep B dep m v) = v
    rw [hfixv]
    exact ih v hfixv

theorem closeStep_strict (B : List BNode) (dep : ℕ → ℕ) (m : ℕ) (v : List ℕ)
    (h : closeStep B dep m v ≠ v) :
    (((B.map BNode.id).toFinset.filter (fun i => i ∉ closeStep B dep m v)).card <
      ((B.map BNode.id).toFinset.filter (fun i => i ∉ v)).card) := by
  have hne : ((v.flatMap (pruned B dep m)).dedup.filter (fun p => decide (p ∉ v))) ≠ [] := by
    intro hnil
    apply h
    unfold closeStep
    rw [hnil, List.append_nil]
  obtain ⟨p, hp⟩ := List.exists_mem_of_ne_nil _ hne
  rw [List.mem_filter, List.mem_dedup, List.mem_flatMap] at hp
  obtain ⟨⟨q, hq, hpq⟩, hpnv⟩ := hp
  rw [decide_eq_true_eq] at hpnv
  have hpin : p ∈ (B.map BNode.id).toFinset := by
    rw [pruned, List.mem_filter, Bool.and_eq_true] at hpq
    obtain ⟨m', hm', hmid⟩ := by
      have := hpq.2.1
      simpa only [inBody, List.any_eq_true, beq_iff_eq] using this
    rw [List.mem_toFinset]
    exact hmid ▸ List.mem_map_of_mem BNode.id hm'
  have hpstep : p ∈ closeStep B dep m v := by
    rw [mem_closeStep]
    exact Or.inr ⟨q, hq, hpq⟩
  apply Finset.card_lt_card
  rw [Finset.ssubset_iff_of_subset]
  · exact ⟨p, by rw [Finset.mem_filter]; exact ⟨hpin, hpnv⟩,
      by rw [Finset.mem_filter]; push_neg; intro _; simpa using hpstep⟩
  · intro i hi
    rw [Finset.mem_filter] at hi ⊢
    exact ⟨hi.1, fun hiv => hi.2 (subset_closeStep B dep m v hiv)⟩

theorem closeN_reaches_fix (B : List BNode) (dep : ℕ → ℕ) (m : ℕ) :
    ∀ (f : ℕ) (v : List ℕ),
      ((B.map BNode.id).toFinset.filter (fun i => i ∉ v)).card < f →
      closeStep B dep m (closeN B dep m f v) = closeN B dep m f v := by
  intro f
  induction f with
  | zero => intro v hv; exact absurd hv (by omega)
  | succ f ih =>
    intro v hv
    by_cases hfixv : closeStep B dep m v = v
    · show closeStep B dep m (closeN B dep m f (closeStep B dep m v)) = _
      rw [hfixv, closeN_of_fix B dep m f v hfixv, hfixv]
      exact (closeN_of_fix B dep m (f + 1) v hfixv).symm
    · have hlt := closeStep_strict B dep m v hfixv
      exact ih (closeStep B dep m v) (by omega)

theorem reachClosure_fix (B : List BNode) (dep : ℕ → ℕ) (m : ℕ) (start : List ℕ) :
    closeStep B dep m (reachClosure B dep m start) = reachClosure B dep m start := by
  apply closeN_reaches_fix
  calc ((B.map BNode.id).toFinset.filter (fun i => i ∉ start)).card
      ≤ (B.map BNode.id).toFinset.card := Finset.card_filter_le _ _
    _ ≤ (B.map BNode.id).length := List.toFinset_card_le _
    _ = B.length := List.length_map _ _
    _ < B.length + 1 := by omega

theorem closeN_sound (B : List BNode) (dep : ℕ → ℕ) (m : ℕ) (start : List ℕ) :
    ∀ (f : ℕ) (v : List ℕ), (∀ x ∈ v, ReachP B dep m start x) →
      ∀ q ∈ closeN B dep m f v, ReachP B dep m start q := by
  intro f
  induction f with
  | zero => intro v hv q hq; exact hv q hq
  | succ f ih =>
    intro v hv q hq
    refine ih (closeStep B dep m v) ?_ q hq
    intro x hx
    rcases (mem_closeStep B dep m v x).mp hx with hx' | ⟨q', hq', hx'⟩
    · exact hv x hx'
    · exact ReachP.step q' x (hv q' hq') hx'

theorem reach_mem_closure (B : List BNode) (dep : ℕ → ℕ) (m : ℕ) (start : List ℕ) :
    ∀ q, ReachP B dep m start q → q ∈ reachClosure B dep m start := by
  intro q hq
  induction hq with
  | base q hq => exact subset_closeN B dep m (B.length + 1) start hq
  | step q p hq hp ih =>
    have := reachClosure_fix B dep m start
    rw [← this, mem_closeStep]
    exact Or.inr ⟨q, ih, hp⟩

theorem foundB_iff (B : List BNode) (dep : ℕ → ℕ) (m : ℕ) (start target : List ℕ) :
    foundB B dep m start target = true ↔
      ∃ q, ReachP B dep m start q ∧ ∃ p ∈ pruned B dep m q, p ∈ target := by
  unfold foundB
  rw [List.any_eq_true]
  constructor
  · rintro ⟨q, hq, hinner⟩
    rw [List.any_eq_true] at hinner
    obtain ⟨p, hp, hpt⟩ := hinner
    rw [decide_eq_true_eq] at hpt
    exact ⟨q, closeN_sound B dep m start (B.length + 1) start
      (fun x hx => ReachP.base x hx) q hq, p, hp, hpt⟩
  · rintro ⟨q, hq, p, hp, hpt⟩
    refine ⟨q, reach_mem_closure B dep m start q hq, ?_⟩
    rw [List.any_eq_true]
    exact ⟨p, hp, by rw [decide_eq_true_eq]; exact hpt⟩

theorem mem_pruned_iff (B : List BNode) (dep : ℕ → ℕ) (m : ℕ) (q p : ℕ) :
    p ∈ pruned B dep m q ↔
      (∃ n, B.find? (fun x => x.id == q) = some n ∧ p ∈ n.preds) ∧
      inBody B p = true ∧ m ≤ dep p := by
  unfold pruned predsOf
  rcases hfind : B.find? (fun x => x.id == q) with - | n
  · rw [hfind]
    simp [hfind]
  · rw [hfind]
    simp only [List.mem_filter, Bool.and_eq_true, decide_eq_true_eq]
    constructor
    · rintro ⟨hp, hin, hm⟩
      exact ⟨⟨n, rfl, hp⟩, hin, hm⟩
    · rintro ⟨⟨n', hn', hp⟩, hin, hm⟩
      injection hn' with hn'
      exact ⟨hn' ▸ hp, hin, hm⟩

theorem find_id_of_nodup (B : List BNode) (hnodup : (B.map BNode.id).Nodup)
    (n : BNode) (hn : n ∈ B) :
    B.find? (fun x => x.id == n.id) = some n := by
  rcases hfind : B.find? (fun x => x.id == n.id) with - | n'
  · rw [List.find?_eq_none] at hfind
    exact absurd (by simp : (n.id == n.id) = true) (hfind n hn)
  · have h1 := List.find?_some hfind
    simp only [beq_iff_eq] at h1
    have h2 : n' ∈ B := List.mem_of_find?_eq_some hfind
    have h3 : n' = n := List.inj_on_of_nodup_map hnodup h2 hn h1
    exact h3 ▸ hfind

theorem dIn_ge_pred (B : List BNode) (dep : ℕ → ℕ) (n : BNode) (p : ℕ)
    (hp : p ∈ n.preds) (hin : inBody B p = true) : dep p ≤ dIn B dep n := by
  unfold dIn
  have hmono : ∀ (l : List ℕ) (acc : ℕ),
      acc ≤ l.foldl (fun a q => if inBody B q = true then max a (dep q) else a) acc := by
    intro l
    induction l with
    | nil => intro acc; exact le_refl acc
    | cons q l ih =>
      intro acc
      rw [List.foldl_cons]
      refine le_trans ?_ (ih _)
      by_cases hq : inBody B q = true
      · rw [if_pos hq]; exact le_max_left _ _
      · rw [if_neg hq]
  have hmem : ∀ (l : List ℕ) (acc : ℕ), p ∈ l →
      dep p ≤ l.foldl (fun a q => if inBody B q = true then max a (dep q) else a) acc := by
    intro l
    induction l with
    | nil => intro acc h; exact absurd h (by simp)
    | cons q l ih =>
      intro acc h
      rw [List.foldl_cons]
      rcases List.mem_cons.mp h with rfl | h'
      · rw [if_pos hin]
        exact le_trans (le_max_right _ _) (hmono l _)
      · exact ih _ h'
  exact hmem n.preds 0 hp

theorem dep_pred_lt (B : List BNode) (dep : ℕ → ℕ)
    (hfixdep : ∀ n ∈ B, n.isPhi = false → dep n.id = dIn B dep n + 1)
    (n : BNode) (hn : n ∈ B) (hnphi : n.isPhi = false) (p : ℕ)
    (hp : p ∈ n.preds) (hin : inBody B p = true) : dep p < dep n.id := by
  rw [hfixdep n hn hnphi]
  have := dIn_ge_pred B dep n p hp hin
  omega

theorem inBody_node (B : List BNode) (p : ℕ) (h : inBody B p = true) :
    ∃ n ∈ B, n.id = p := by
  simpa only [inBody, List.any_eq_true, beq_iff_eq] using h

theorem pruned_nonphi (B : List BNode) (dep : ℕ → ℕ) (m : ℕ)
    (hphi0 : ∀ n ∈ B, n.isPhi = true → dep n.id = 0) (hm : 1 ≤ m)
    (q p : ℕ) (hp : p ∈ pruned B dep m q) :
    ∃ n ∈ B, n.id = p ∧ n.isPhi = false := by
  rw [mem_pruned_iff] at hp
  obtain ⟨-, hin, hdep⟩ := hp
  obtain ⟨n, hn, hnid⟩ := inBody_node B p hin
  refine ⟨n, hn, hnid, ?_⟩
  rcases Bool.eq_false_or_eq_true n.isPhi with hphi | hphi
  · have := hphi0 n hn hphi
    rw [hnid] at this
    omega
  · exact hphi

theorem reach_multi_iff (B : List BNode) (dep : ℕ → ℕ) (m : ℕ) (S : List ℕ) (q : ℕ) :
    ReachP B dep m S q ↔ ∃ s ∈ S, ReachP B dep m [s] q := by
  constructor
  · intro h
    induction h with
    | base q hq => exact ⟨q, hq, ReachP.base q (by simp)⟩
    | step q p hq hp ih =>
      obtain ⟨s, hs, hsq⟩ := ih
      exact ⟨s, hs, ReachP.step q p hsq hp⟩
  · rintro ⟨s, hs, hsq⟩
    induction hsq with
    | base x hx =>
      rw [List.mem_singleton] at hx
      exact hx ▸ ReachP.base s hs
    | step x p hx hp ih => exact ReachP.step x p ih hp

theorem reach_nonphi (B : List BNode) (dep : ℕ → ℕ) (m : ℕ) (s : ℕ)
    (hphi0 : ∀ n ∈ B, n.isPhi = true → dep n.id = 0) (hm : 1 ≤ m)
    (hs : ∃ n ∈ B, n.id = s ∧ n.isPhi = false) :
    ∀ q, ReachP B dep m [s] q → ∃ n ∈ B, n.id = q ∧ n.isPhi = false := by
  intro q hq
  induction hq with
  | base x hx =>
    rw [List.mem_singleton] at hx
    exact hx ▸ hs
  | step x p hx hp ih => exact pruned_nonphi B dep m hphi0 hm x p hp

theorem reach_dep_le (B : List BNode) (dep : ℕ → ℕ) (m : ℕ) (s : ℕ)
    (hnodup : (B.map BNode.id).Nodup)
    (hfixdep : ∀ n ∈ B, n.isPhi = false → dep n.id = dIn B dep n + 1)
    (hphi0 : ∀ n ∈ B, n.isPhi = true → dep n.id = 0) (hm : 1 ≤ m)
    (hs : ∃ n ∈ B, n.id = s ∧ n.isPhi = false) :
    ∀ q, ReachP B dep m [s] q → q = s ∨ dep q < dep s := by
  intro q hq
  induction hq with
  | base x hx =>
    rw [List.mem_singleton] at hx
    exact Or.inl hx
  | step x p hx hp ih =>
    obtain ⟨nx, hnx, hnxid, hnxphi⟩ := reach_nonphi B dep m s hphi0 hm hs x hx
    have hplt : dep p < dep x := by
      rw [mem_pruned_iff] at hp
      obtain ⟨⟨n', hn', hpn'⟩, hin, -⟩ := hp
      rw [← hnxid, find_id_of_nodup B hnodup nx hnx] at hn'
      injection hn' with hn'
      subst hn'
      rw [← hnxid]
      exact dep_pred_lt B dep hfixdep nx hnx hnxphi p hpn' hin
    rcases ih with rfl | hlt
    · exact Or.inr hplt
    · exact Or.inr (lt_trans hplt hlt)

theorem reach_raise (B : List BNode) (dep : ℕ → ℕ) (m : ℕ) (s : ℕ)
    (hnodup : (B.map BNode.id).Nodup)
    (hfixdep : ∀ n ∈ B, n.isPhi = false → dep n.id = dIn B dep n + 1)
    (hphi0 : ∀ n ∈ B, n.isPhi = true → dep n.id = 0) (hm : 1 ≤ m)
    (hs : ∃ n ∈ B, n.id = s ∧ n.isPhi = false) :
    ∀ q, ReachP B dep m [s] q → ∀ m', m' ≤ dep q → ReachP B dep m' [s] q := by
  intro q hq
  induction hq with
  | base x hx =>
    intro m' hm'
    exact ReachP.base x hx
  | step x p hx hp ih =>
    intro m' hm'
    obtain ⟨nx, hnx, hnxid, hnxphi⟩ := reach_nonphi B dep m s hphi0 hm hs x hx
    have hplt : dep p < dep x := by
      rw [mem_pruned_iff] at hp
      obtain ⟨⟨n', hn', hpn'⟩, hin, -⟩ := hp
      rw [← hnxid, find_id_of_nodup B hnodup nx hnx] at hn'
      injection hn' with hn'
      subst hn'
      rw [← hnxid]
      exact dep_pred_lt B dep hfixdep nx hnx hnxphi p hpn' hin
    refine ReachP.step x p (ih m' (by omega)) ?_
    rw [mem_pruned_iff] at hp ⊢
    exact ⟨hp.1, hp.2.1, hm'⟩

theorem reach_lower (B : List BNode) (dep : ℕ → ℕ) (m m' : ℕ) (s : ℕ)
    (hmm : m' ≤ m) :
    ∀ q, ReachP B dep m [s] q → ReachP B dep m' [s] q := by
  intro q hq
  induction hq with
  | base x hx => exact ReachP.base x hx
  | step x p hx hp ih =>
    refine ReachP.step x p ih ?_
    rw [mem_pruned_iff] at hp ⊢
    exact ⟨hp.1, hp.2.1, le_trans hmm hp.2.2⟩

theorem pruned_lower (B : List BNode) (dep : ℕ → ℕ) (m m' : ℕ) (q p : ℕ)
    (hmm : m' ≤ m) (hp : p ∈ pruned B dep m q) : p ∈ pruned B dep m' q := by
  rw [mem_pruned_iff] at hp ⊢
  exact ⟨hp.1, hp.2.1, le_trans hmm hp.2.2⟩

theorem foldl_min_le_acc (dep : ℕ → ℕ) :
    ∀ (l : List ℕ) (acc : ℕ), l.foldl (fun a q => min a (dep q)) acc ≤ acc := by
  intro l
  induction l with
  | nil => intro acc; exact le_refl acc
  | cons q l ih =>
    intro acc
    rw [List.foldl_cons]
    exact le_trans (ih _) (min_le_left _ _)

theorem foldl_min_le_mem (dep : ℕ → ℕ) :
    ∀ (l : List ℕ) (acc : ℕ) (q : ℕ), q ∈ l →
      l.foldl (fun a q => min a (dep q)) acc ≤ dep q := by
  intro l
  induction l with
  | nil => intro acc q h; exact absurd h (by simp)
  | cons x l ih =>
    intro acc q h
    rw [List.foldl_cons]
    rcases List.mem_cons.mp h with rfl | h'
    · exact le_trans (foldl_min_le_acc dep l _) (min_le_right _ _)
    · exact ih _ q h'

theorem foldl_min_attained (dep : ℕ → ℕ) :
    ∀ (l : List ℕ) (acc : ℕ),
      l.foldl (fun a q => min a (dep q)) acc = acc ∨
      ∃ q ∈ l, l.foldl (fun a q => min a (dep q)) acc = dep q := by
  intro l
  induction l with
  | nil => intro acc; exact Or.inl rfl
  | cons x l ih =>
    intro acc
    rw [List.foldl_cons]
    rcases ih (min acc (dep x)) with h | ⟨q, hq, h⟩
    · rw [h]
      rcases le_total acc (dep x) with hle | hle
      · rw [min_eq_left hle]; exact Or.inl rfl
      · rw [min_eq_right hle]
        exact Or.inr ⟨x, List.mem_cons_self x l, rfl⟩
    · exact Or.inr ⟨q, List.mem_cons_of_mem x hq, h⟩

theorem pruned_dep_lt (B : List BNode) (dep : ℕ → ℕ) (m : ℕ)
    (hnodup : (B.map BNode.id).Nodup)
    (hfixdep : ∀ n ∈ B, n.isPhi = false → dep n.id = dIn B dep n + 1)
    (q p : ℕ) (hq : ∃ n ∈ B, n.id = q ∧ n.isPhi = false)
    (hp : p ∈ pruned B dep m q) : dep p < dep q := by
  obtain ⟨nq, hnq, hnqid, hnqphi⟩ := hq
  rw [mem_pruned_iff] at hp
  obtain ⟨⟨n', hn', hpn'⟩, hin, -⟩ := hp
  rw [← hnqid, find_id_of_nodup B hnodup nq hnq] at hn'
  injection hn' with hn'
  subst hn'
  rw [← hnqid]
  exact dep_pred_lt B dep hfixdep nq hnq hnqphi p hpn' hin

/-- C8: for a dependence graph whose depths satisfy the
`compute_max_depth` fixpoint (non-phis) and are 0 at phis, and for a
non-empty list S of distinct in-body non-phi node ids,
`mutually_independent` (the one-pass multi-source backward traversal of
VLoopDependenceGraph::mutually_independent) returns true iff
`independent` (VLoopDependenceGraph::independent) returns true on every
pair of distinct members of S: the two prunings detect exactly the same
dependences. -/
theorem mutually_independent_iff_pairwise (B : List BNode) (dep : ℕ → ℕ)
    (S : List ℕ)
    (hnodup : (B.map BNode.id).Nodup)
    (hfixdep : ∀ n ∈ B, n.isPhi = false → dep n.id = dIn B dep n + 1)
    (hphi0 : ∀ n ∈ B, n.isPhi = true → dep n.id = 0)
    (hS : ∀ q ∈ S, ∃ n ∈ B, n.id = q ∧ n.isPhi = false)
    (hSne : S ≠ []) :
    (mutually_independent B dep S = true ↔
      ∀ s1 ∈ S, ∀ s2 ∈ S, s1 ≠ s2 → independent B dep s1 s2 = true) := by
  rcases S with - | ⟨s0, rest⟩
  · exact absurd rfl hSne
  simp only [mutually_independent]
  set mS := (s0 :: rest).foldl (fun a q => min a (dep q)) (dep s0) with hmSdef
  have hmS_le : ∀ q ∈ s0 :: rest, mS ≤ dep q :=
    fun q hq => foldl_min_le_mem dep (s0 :: rest) (dep s0) q hq
  have hdep1 : ∀ q ∈ s0 :: rest, 1 ≤ dep q := by
    intro q hq
    obtain ⟨n, hn, hnid, hnphi⟩ := hS q hq
    rw [← hnid, hfixdep n hn hnphi]
    omega
  have hmS1 : 1 ≤ mS := by
    rcases foldl_min_attained dep (s0 :: rest) (dep s0) with h | ⟨q, hq, h⟩
    · rw [hmSdef, h]
      exact hdep1 s0 (List.mem_cons_self s0 rest)
    · rw [hmSdef, h]
      exact hdep1 q hq
  have hpairfound : ∀ dq ∈ s0 :: rest, ∀ sq ∈ s0 :: rest, ∀ m', mS ≤ m' →
      foundB B dep m' [dq] [sq] = true →
      foundB B dep mS (s0 :: rest) (s0 :: rest) = true := by
    intro dq hdq sq hsq m' hm' hfound
    rw [foundB_iff] at hfound
    obtain ⟨q, hreach, p, hp, hpt⟩ := hfound
    rw [List.mem_singleton] at hpt
    subst hpt
    have hreach2 := reach_lower B dep m' mS dq hm' q hreach
    have hp2 := pruned_lower B dep m' mS q p hm' hp
    rw [foundB_iff]
    exact ⟨q, (reach_multi_iff B dep mS (s0 :: rest) q).mpr ⟨dq, hdq, hreach2⟩,
      p, hp2, hsq⟩
  rw [Bool.not_eq_true']
  constructor
  · intro hnf s1 hs1 s2 hs2 hne
    rcases Bool.eq_false_or_eq_true (independent B dep s1 s2) with hind | hind
    · exact hind
    exfalso
    simp only [independent] at hind
    by_cases hd : dep s1 = dep s2
    · rw [if_pos hd, bne_eq_false_iff_eq] at hind
      exact hne hind
    · rw [if_neg hd, Bool.not_eq_false'] at hind
      have hminS : mS ≤ min (dep s1) (dep s2) :=
        le_min (hmS_le s1 hs1) (hmS_le s2 hs2)
      by_cases hlt : dep s2 < dep s1
      · simp only [if_pos hlt] at hind
        have := hpairfound s1 hs1 s2 hs2 (min (dep s1) (dep s2)) hminS hind
        rw [this] at hnf
        exact absurd hnf (by simp)
      · simp only [if_neg hlt] at hind
        have := hpairfound s2 hs2 s1 hs1 (min (dep s1) (dep s2)) hminS hind
        rw [this] at hnf
        exact absurd hnf (by simp)
  · intro hpair
    rcases Bool.eq_false_or_eq_true
      (foundB B dep mS (s0 :: rest) (s0 :: rest)) with hf | hf
    swap
    · exact hf
    exfalso
    rw [foundB_iff] at hf
    obtain ⟨q, hreachS, p, hp, hpS⟩ := hf
    obtain ⟨s, hsS, hreach⟩ := (reach_multi_iff B dep mS (s0 :: rest) q).mp hreachS
    have hs_node := hS s hsS
    have hq_node := reach_nonphi B dep mS s hphi0 hmS1 hs_node q hreach
    have hplt : dep p < dep q :=
      pruned_dep_lt B dep mS hnodup hfixdep q p hq_node hp
    have hqle := reach_dep_le B dep mS s hnodup hfixdep hphi0 hmS1 hs_node q hreach
    have hps : dep p < dep s := by
      rcases hqle with rfl | hlt
      · exact hplt
      · exact lt_trans hplt hlt
    have hsnep : s ≠ p := by
      intro h
      rw [h] at hps
      exact absurd hps (lt_irrefl _)
    have hip := hpair s hsS p hpS hsnep
    simp only [independent] at hip
    rw [if_neg (by omega : ¬dep s = dep p)] at hip
    simp only [if_pos hps] at hip
    rw [Bool.not_eq_true'] at hip
    have hfound' : foundB B dep (min (dep s) (dep p)) [s] [p] = true := by
      rw [foundB_iff]
      have hm'p : min (dep s) (dep p) = dep p := min_eq_right (le_of_lt hps)
      refine ⟨q, ?_, p, ?_, by simp⟩
      · refine reach_raise B dep mS s hnodup hfixdep hphi0 hmS1 hs_node q hreach
          (min (dep s) (dep p)) ?_
        rw [hm'p]
        exact le_of_lt hplt
      · rw [mem_pruned_iff] at hp ⊢
        exact ⟨hp.1, hp.2.1, by rw [hm'p]⟩
    rw [hfound'] at hip
    exact absurd hip (by simp)

theorem mutually_independent_iff_pairwise_witness :
    ((([⟨1, true, []⟩, ⟨2, false, [1]⟩, ⟨3, false, [1, 2]⟩] : List BNode).map
         BNode.id).Nodup ∧
      (∀ n ∈ ([⟨1, true, []⟩, ⟨2, false, [1]⟩, ⟨3, false, [1, 2]⟩] : List BNode),
        n.isPhi = false → (fun q => q - 1) n.id =
          dIn [⟨1, true, []⟩, ⟨2, false, [1]⟩, ⟨3, false, [1, 2]⟩]
            (fun q => q - 1) n + 1) ∧
      (∀ n ∈ ([⟨1, true, []⟩, ⟨2, false, [1]⟩, ⟨3, false, [1, 2]⟩] : List BNode),
        n.isPhi = true → (fun q => q - 1) n.id = 0) ∧
      (∀ q ∈ ([2, 3] : List ℕ),
        ∃ n ∈ ([⟨1, true, []⟩, ⟨2, false, [1]⟩, ⟨3, false, [1, 2]⟩] : List BNode),
          n.id = q ∧ n.isPhi = false) ∧
      ([2, 3] : List ℕ) ≠ []) ∧
    (mutually_independent [⟨1, true, []⟩, ⟨2, false, [1]⟩, ⟨3, false, [1, 2]⟩]
        (fun q => q - 1) [2, 3] = true ↔
      ∀ s1 ∈ ([2, 3] : List ℕ), ∀ s2 ∈ ([2, 3] : List ℕ), s1 ≠ s2 →
        independent [⟨1, true, []⟩, ⟨2, false, [1]⟩, ⟨3, false, [1, 2]⟩]
          (fun q => q - 1) s1 s2 = true) :=
  ⟨⟨by decide, by decide, by decide, by decide, by decide⟩,
   mutually_independent_iff_pairwise
     [⟨1, true, []⟩, ⟨2, false, [1]⟩, ⟨3, false, [1, 2]⟩] (fun q => q - 1) [2, 3]
     (by decide) (by decide) (by decide) (by decide) (by decide)⟩
